import Mathlib

/-!
Verification of the JSON-to-XML / JSON-to-DOCX conversion service
(`src/main.py`).  The development shallowly embeds the Python source:
strings are `List Char`, JSON values are a closed inductive type, XML
elements are a tree structure mirroring `xml.etree.ElementTree.Element`
(`name`, attribute pairs, optional text merged with the empty string,
ordered children).  Fallible steps return `Option` or `Except`.
-/

set_option maxHeartbeats 1000000

/-- Abbreviation turning a string literal into the `List Char` representation
used throughout the development. -/
def toL (s : String) : List Char := s.data

/-- Whitespace predicate of Python `str.strip` restricted to the ASCII
whitespace characters (space, tab, newline, carriage return, vertical tab,
form feed). -/
def pyWs (c : Char) : Bool :=
  c = ' ' || c = '\t' || c = '\n' || c = '\r' || c = '\x0b' || c = '\x0c'

/-- Model of Python `str.strip()`: drop leading and trailing whitespace. -/
def pyStrip (s : List Char) : List Char :=
  ((s.dropWhile pyWs).reverse.dropWhile pyWs).reverse

/-- Model of Python `str.startswith`. -/
def startsL (pre s : List Char) : Bool := pre.isPrefixOf s

/-- Model of Python `str.endswith`. -/
def endsL (suf s : List Char) : Bool := suf.reverse.isPrefixOf s.reverse

/-- Model of Python `s.split(chr(10))`. -/
def splitNl : List Char → List (List Char)
  | [] => [[]]
  | c :: rest =>
    match splitNl rest with
    | [] => [[c]]
    | h :: t => if c = '\n' then [] :: h :: t else (c :: h) :: t

/-- Model of Python `(chr(10)).join`. -/
def joinNl : List (List Char) → List Char
  | [] => []
  | [l] => l
  | l :: ls => l ++ '\n' :: joinNl ls

/-- Model of a single-character Python `str.replace`: every occurrence of
`old` is replaced by `new`.  For one-character patterns this is exactly a
character-wise map. -/
def pyReplace (s : List Char) (old new : Char) : List Char :=
  s.map (fun c => if c = old then new else c)

/-- Embedding of `JSONToXMLConverter.apply_replacements` (main.py lines
33-38): the replacement table iterates in insertion order, first
underscore to colon, then dollar to at-sign. -/
def apply_replacements (s : List Char) : List Char :=
  pyReplace (pyReplace s '_' ':') '$' '@'

/-- Character class of the regular expression `[a-zA-Z0-9:@._-]` used in
`json_to_xml_element` (main.py line 62). -/
def allowedNameChar (c : Char) : Bool :=
  c.isAlpha || c.isDigit || c = ':' || c = '@' || c = '.' || c = '_' || c = '-'

/-- First two cleaning steps of the element name in
`json_to_xml_element` (main.py lines 59-62): apply the character
replacements, then replace every character outside `[a-zA-Z0-9:@._-]`
with an underscore. -/
def cleanedOf (s : List Char) : List Char :=
  (apply_replacements s).map (fun c => if allowedNameChar c then c else '_')

/-- Embedding of the element-name cleaning in `json_to_xml_element`
(main.py lines 58-64): apply the character replacements, replace every
character outside `[a-zA-Z0-9:@._-]` with an underscore, and prefix
`item_` when the result starts with a digit. -/
def sanitizeName (s : List Char) : List Char :=
  match cleanedOf s with
  | [] => []
  | c :: rest => if c.isDigit then toL "item_" ++ (c :: rest) else c :: rest

/-- JSON values as produced by `json.loads`: a closed variant type.
Numbers are modelled by integers (the claims under verification only
involve integral numbers). -/
inductive Json where
  | null : Json
  | bool (b : Bool) : Json
  | num (n : Int) : Json
  | str (s : List Char) : Json
  | arr (items : List Json) : Json
  | obj (fields : List (List Char × Json)) : Json

/-- Model of Python `str(...)` on the scalar JSON values: `str(None)` is
`"None"`, booleans capitalise, numbers print in decimal. -/
def pyStr : Json → List Char
  | Json.null => toL "None"
  | Json.bool true => toL "True"
  | Json.bool false => toL "False"
  | Json.num n => (Int.repr n).data
  | Json.str s => s
  | Json.arr _ => []
  | Json.obj _ => []

/-- Scalar (non-container) JSON values, the branch of
`json_to_xml_element` that sets text content. -/
def Json.isScalar : Json → Bool
  | Json.arr _ => false
  | Json.obj _ => false
  | _ => true

/-- XML element in the style of `xml.etree.ElementTree.Element`: a tag
name, ordered attribute pairs, text content (the empty list standing for
both absent and empty text, which the source never distinguishes), and
ordered children.  Tail text never occurs in trees built by the mapper. -/
structure XNode where
  name : List Char
  attrs : List (List Char × List Char)
  text : List Char
  children : List XNode

/-- Synthetic tag used by `json_to_xml_element` for the i-th array item
(main.py line 75, the f-string `f"item_{i}"`). -/
def itemTag (i : Nat) : List Char := toL "item_" ++ (Nat.repr i).data

mutual
/-- Embedding of `JSONToXMLConverter.json_to_xml_element` (main.py lines
44-83).  Dictionaries map each key in order to a child element named by
the key; lists map the i-th item to a child named `item_i`; all other
values become text content `apply_replacements(str(data))`. -/
def json_to_xml_element : Json → List Char → XNode
  | Json.obj kvs, n => ⟨sanitizeName n, [], [], jxFields kvs⟩
  | Json.arr xs, n => ⟨sanitizeName n, [], [], jxItems xs 0⟩
  | d, n => ⟨sanitizeName n, [], apply_replacements (pyStr d), []⟩

/-- Children of a dictionary node: one element per key/value pair, in
insertion order. -/
def jxFields : List (List Char × Json) → List XNode
  | [] => []
  | (k, v) :: rest => json_to_xml_element v k :: jxFields rest

/-- Children of a list node: one element per item, named `item_<index>`
with indices counting from `i`. -/
def jxItems : List Json → Nat → List XNode
  | [], _ => []
  | x :: rest, i => json_to_xml_element x (itemTag i) :: jxItems rest (i + 1)
end

/-- Tag names of the immediate children of a node. -/
def childTags (t : XNode) : List (List Char) := t.children.map XNode.name

/-- Text contents of the immediate children of a node. -/
def childTexts (t : XNode) : List (List Char) := t.children.map XNode.text

/-- Embedding of `JSONToXMLConverter.is_xml_content` (main.py lines
40-42): the value must be a string whose stripped form starts with
`<?xml` and ends with `>`. -/
def is_xml_content : Json → Bool
  | Json.str s => startsL (toL "<?xml") (pyStrip s) && endsL (toL ">") (pyStrip s)
  | _ => false

/-- Shape test of the escape hatch in `convert_json_to_xml` (main.py
lines 97-101): a one-element list holding a one-key dictionary whose
value passes `is_xml_content`. -/
def isEscapeHatch : Json → Bool
  | Json.arr [Json.obj [(_, v)]] => is_xml_content v
  | _ => false

/-- XML whitespace as treated by the parser (the S production). -/
def isWsX (c : Char) : Bool := c = ' ' || c = '\t' || c = '\n' || c = '\r'

/-- Leading character of an XML name accepted by the parser (ASCII
fragment of NameStartChar, without the colon: both
`minidom.parseString` and `ElementTree.fromstring` run expat with
namespace processing, which rejects every colon-carrying name in a
document that declares no namespace — `unbound prefix` for a declared
shape such as `a:b`, `not well-formed` for `a:2` — and the strings this
service feeds them never declare one). -/
def nameStartOk (c : Char) : Bool := c.isAlpha || c = '_'

/-- Subsequent character of an XML name accepted by the parser (ASCII
fragment of NameChar, colon excluded as in `nameStartOk`).  Note that
neither the at-sign nor the colon is accepted here even though the
sanitizer's own character class admits both. -/
def nameCharOk (c : Char) : Bool :=
  c.isAlpha || c.isDigit || c = '_' || c = '.' || c = '-'

/-- Characters the parser accepts inside text content (XML Char
production, surrogates being unrepresentable in `Char`). -/
def parsedCharOk (c : Char) : Bool :=
  c = '\t' || c = '\n' || c = '\r' || (32 ≤ c.toNat && c.toNat ≠ 65534 && c.toNat ≠ 65535)

/-- Helper prepending a character to the text component of a parse
result. -/
def consText (c : Char) : Option (List Char × List Char) → Option (List Char × List Char)
  | none => none
  | some (t, r) => some (c :: t, r)

/-- Apostrophe character, the expansion of the fifth predefined
entity. -/
def aposChar : Char := Char.ofNat 39

/-- Text-content scanner of the XML parser: consume character data and
the five predefined entities until a `<` or the end of input.  Numeric
character references, comments, CDATA sections and processing
instructions inside content never occur in the strings this service
feeds the parsers and stay outside the model. -/
def parseText : List Char → Option (List Char × List Char)
  | [] => some ([], [])
  | '<' :: rest => some ([], '<' :: rest)
  | '&' :: 'a' :: 'm' :: 'p' :: ';' :: rest => consText '&' (parseText rest)
  | '&' :: 'l' :: 't' :: ';' :: rest => consText '<' (parseText rest)
  | '&' :: 'g' :: 't' :: ';' :: rest => consText '>' (parseText rest)
  | '&' :: 'q' :: 'u' :: 'o' :: 't' :: ';' :: rest => consText '"' (parseText rest)
  | '&' :: 'a' :: 'p' :: 'o' :: 's' :: ';' :: rest => consText aposChar (parseText rest)
  | '&' :: _ => none
  | c :: rest => if parsedCharOk c then consText c (parseText rest) else none

/-- Name scanner of the XML parser. -/
def parseName (s : List Char) : Option (List Char × List Char) :=
  match s with
  | [] => none
  | c :: rest =>
    if nameStartOk c then some (c :: rest.takeWhile nameCharOk, rest.dropWhile nameCharOk)
    else none

/-- Closing-tag scanner: positioned after the characters `</`, read a
name, require it to match the opening tag, and consume the final `>`. -/
def parseClose (expected : List Char) (s : List Char) : Option (List Char) :=
  match parseName s with
  | none => none
  | some (n, r1) =>
    if n = expected then
      match r1.dropWhile isWsX with
      | '>' :: r2 => some r2
      | _ => none
    else none

/-- Attribute-value scanner: consume up to the closing double quote. -/
def parseAttrValue : List Char → Option (List Char × List Char)
  | [] => none
  | '"' :: rest => some ([], rest)
  | '<' :: _ => none
  | '&' :: 'a' :: 'm' :: 'p' :: ';' :: rest => consText '&' (parseAttrValue rest)
  | '&' :: 'l' :: 't' :: ';' :: rest => consText '<' (parseAttrValue rest)
  | '&' :: 'g' :: 't' :: ';' :: rest => consText '>' (parseAttrValue rest)
  | '&' :: 'q' :: 'u' :: 'o' :: 't' :: ';' :: rest => consText '"' (parseAttrValue rest)
  | '&' :: 'a' :: 'p' :: 'o' :: 's' :: ';' :: rest => consText aposChar (parseAttrValue rest)
  | '&' :: _ => none
  | c :: rest => if parsedCharOk c then consText c (parseAttrValue rest) else none

/-- Attribute-list scanner, fuelled to bound the loop.  A repeated
attribute name makes the scan fail, as expat raises `duplicate
attribute` on it. -/
def parseAttrs : Nat → List Char → Option (List (List Char × List Char) × List Char)
  | 0, _ => none
  | fuel + 1, s =>
    match s.dropWhile isWsX with
    | [] => some ([], [])
    | c :: r0 =>
      if nameStartOk c then
        match parseName (c :: r0) with
        | none => none
        | some (an, r1) =>
          match r1.dropWhile isWsX with
          | '=' :: r2 =>
            match r2.dropWhile isWsX with
            | '"' :: r3 =>
              match parseAttrValue r3 with
              | none => none
              | some (av, r4) =>
                match parseAttrs fuel r4 with
                | none => none
                | some (ats, r5) =>
                  if ats.any (fun p => p.1 == an) then none
                  else some ((an, av) :: ats, r5)
            | _ => none
          | _ => none
      else some ([], c :: r0)

/-- Test whether the input sits in front of a closing tag, that is,
starts with the two characters `</`. -/
def isCloseAhead : List Char → Bool
  | '<' :: '/' :: _ => true
  | _ => false

mutual
/-- Element scanner of the XML parser, modelling what
`xml.etree.ElementTree.fromstring` and `minidom.parseString` accept on
the fragment the service emits: an element is either self-closing, or
holds text content, or holds child elements separated by whitespace. -/
def parseElem : Nat → List Char → Option (XNode × List Char)
  | 0, _ => none
  | fuel + 1, s =>
    match s with
    | '<' :: r0 =>
      match parseName r0 with
      | none => none
      | some (nm, r1) =>
        match parseAttrs fuel r1 with
        | none => none
        | some (ats, r2) =>
          match r2 with
          | '/' :: '>' :: r3 => some (⟨nm, ats, [], []⟩, r3)
          | '>' :: r3 =>
            match parseText r3 with
            | none => none
            | some (t0, r4) =>
              if isCloseAhead r4 then
                match r4 with
                | '<' :: '/' :: r5 =>
                  match parseClose nm r5 with
                  | none => none
                  | some r6 => some (⟨nm, ats, t0, []⟩, r6)
                | _ => none
              else
                match r4 with
                | '<' :: r5 =>
                  if t0.all isWsX then
                    match parseSibs fuel ('<' :: r5) with
                    | none => none
                    | some (cs, r6) =>
                      if isCloseAhead r6 then
                        match r6 with
                        | '<' :: '/' :: r7 =>
                          match parseClose nm r7 with
                          | none => none
                          | some r8 => some (⟨nm, ats, [], cs⟩, r8)
                        | _ => none
                      else none
                  else none
                | _ => none
          | _ => none
    | _ => none

/-- Scanner for a run of sibling elements separated by whitespace,
stopping in front of a closing tag. -/
def parseSibs : Nat → List Char → Option (List XNode × List Char)
  | 0, _ => none
  | fuel + 1, s =>
    match parseElem fuel s with
    | none => none
    | some (c, r1) =>
      match parseText r1 with
      | none => none
      | some (t, r2) =>
        if t.all isWsX then
          if isCloseAhead r2 then some ([c], r2)
          else
            match r2 with
            | '<' :: _ =>
              match parseSibs fuel r2 with
              | none => none
              | some (cs, r3) => some (c :: cs, r3)
            | _ => none
        else none
end

/-- Scanner skipping an XML declaration or processing instruction,
positioned after the characters `<?`. -/
def skipPI : List Char → Option (List Char)
  | [] => none
  | '?' :: '>' :: rest => some rest
  | _ :: rest => skipPI rest

/-- Test whether the input starts with the two characters `<?` of an
XML declaration or processing instruction. -/
def startsDecl : List Char → Bool
  | '<' :: '?' :: _ => true
  | _ => false

/-- Document-level entry point of the XML parser: an optional leading
declaration, optional whitespace, one root element, trailing whitespace
only.  This models `minidom.parseString` and
`ElementTree.fromstring` on the class of strings the service hands
them — serializer output, whose elements are whitespace-separated,
attribute-free, comment-free, and escaped with the predefined
entities; on that class the acceptance and the resulting tree agree
with the real parsers, which is what the theorems below use. -/
def parseDoc (s : List Char) : Option XNode :=
  let afterDecl : Option (List Char) :=
    if startsDecl s then skipPI (s.drop 2) else some s
  match afterDecl with
  | none => none
  | some s1 =>
    match parseElem (s.length + 1) (s1.dropWhile isWsX) with
    | none => none
    | some (t, r) => if r.dropWhile isWsX = [] then some t else none

/-- Character escaping of `xml.etree.ElementTree._escape_cdata` for text
content. -/
def etEscChar (c : Char) : List Char :=
  if c = '&' then toL "&amp;"
  else if c = '<' then toL "&lt;"
  else if c = '>' then toL "&gt;"
  else [c]

/-- Escape a whole text, ElementTree style. -/
def etEscape (s : List Char) : List Char := s.flatMap etEscChar

/-- Character escaping of `xml.etree.ElementTree._escape_attrib` for
attribute values. -/
def etEscAttrChar (c : Char) : List Char :=
  if c = '&' then toL "&amp;"
  else if c = '<' then toL "&lt;"
  else if c = '>' then toL "&gt;"
  else if c = '"' then toL "&quot;"
  else if c = '\r' then toL "&#13;"
  else if c = '\n' then toL "&#10;"
  else if c = '\t' then toL "&#09;"
  else [c]

/-- Attribute serialization of `ElementTree.tostring`. -/
def attrsSer (ats : List (List Char × List Char)) : List Char :=
  ats.flatMap (fun p => ' ' :: (p.1 ++ '=' :: '"' :: (p.2.flatMap etEscAttrChar) ++ ['"']))

mutual
/-- Embedding of `ET.tostring(root_element, encoding="unicode")`
(main.py line 110): text before children, short form `<name />` for an
element with neither text nor children. -/
def serialize : XNode → List Char
  | ⟨n, ats, t, cs⟩ =>
    '<' :: (n ++ attrsSer ats) ++
    (if t.isEmpty && cs.isEmpty then toL " />"
     else '>' :: (etEscape t ++ serializeList cs ++ ('<' :: '/' :: n ++ ['>'])))

/-- Serialization of a list of children in order. -/
def serializeList : List XNode → List Char
  | [] => []
  | c :: cs => serialize c ++ serializeList cs
end

/-- Character escaping of `xml.dom.minidom._write_data`, used by
`toprettyxml` for text content (it also escapes double quotes). -/
def mdEscChar (c : Char) : List Char :=
  if c = '&' then toL "&amp;"
  else if c = '<' then toL "&lt;"
  else if c = '"' then toL "&quot;"
  else if c = '>' then toL "&gt;"
  else [c]

/-- Escape a whole text, minidom style. -/
def mdEscape (s : List Char) : List Char := s.flatMap mdEscChar

/-- Attribute serialization of minidom `writexml`. -/
def mdAttrsSer (ats : List (List Char × List Char)) : List Char :=
  ats.flatMap (fun p => ' ' :: (p.1 ++ '=' :: '"' :: mdEscape p.2 ++ ['"']))

/-- Indentation used by `toprettyxml(indent="  ")`: two spaces per
level. -/
def indentL (n : Nat) : List Char := List.replicate (2 * n) ' '

/-- Append a suffix to the last line of a non-empty line list. -/
def addLast (suffix : List Char) : List (List Char) → List (List Char)
  | [] => [suffix]
  | [l] => [l ++ suffix]
  | l :: ls => l :: addLast suffix ls

mutual
/-- Physical output lines of minidom `Element.writexml` with
`indent="  "` and `newl` a newline, except that the indentation of the
element's own first line is left off (it is restored by `prettyPhys`).
An element with a lone text child prints inline on one line; an element
with neither text nor children prints as `<name/>`; otherwise the
element prints as an open-tag line, its children one level deeper, and a
closing-tag line.  Newlines inside text content split into further
physical lines. -/
def coreLines : Nat → XNode → List (List Char)
  | ind, ⟨n, ats, t, cs⟩ =>
    let head0 := '<' :: (n ++ mdAttrsSer ats)
    match cs, t with
    | [], [] => [head0 ++ toL "/>"]
    | [], _ =>
      match splitNl (mdEscape t) with
      | [] => [head0 ++ '>' :: (toL "</" ++ n ++ toL ">")]
      | seg :: segs => addLast (toL "</" ++ n ++ toL ">") ((head0 ++ '>' :: seg) :: segs)
    | _ :: _, [] =>
      (head0 ++ toL ">") :: prettyList (ind + 1) cs ++ [indentL ind ++ toL "</" ++ n ++ toL ">"]
    | _ :: _, _ =>
      (head0 ++ toL ">") :: splitNl (indentL (ind + 1) ++ mdEscape t) ++
        prettyList (ind + 1) cs ++ [indentL ind ++ toL "</" ++ n ++ toL ">"]

/-- Physical lines of a list of siblings, each carrying its own leading
indentation. -/
def prettyList : Nat → List XNode → List (List Char)
  | _, [] => []
  | ind, c :: cs =>
    (match coreLines ind c with
     | [] => []
     | l :: ls => (indentL ind ++ l) :: ls) ++ prettyList ind cs
end

/-- Physical lines of one element including its first-line
indentation. -/
def prettyPhys (ind : Nat) (t : XNode) : List (List Char) :=
  match coreLines ind t with
  | [] => []
  | l :: ls => (indentL ind ++ l) :: ls

/-- Declaration line emitted by `toprettyxml`. -/
def declLine : List Char := toL "<?xml version=\"1.0\" ?>"

/-- Model of the blank-line filter on main.py line 117: keep the lines
whose `strip()` is non-empty. -/
def blankFilter (ls : List (List Char)) : List (List Char) :=
  ls.filter (fun l => !(pyStrip l).isEmpty)

/-- Embedding of main.py lines 109-118: serialize the tree, re-parse it
with minidom, pretty print with two-space indentation, and drop blank
lines.  Returns `none` when minidom cannot parse the rough string, which
the source surfaces as an HTTP 500 error. -/
def prettyPipeline (t : XNode) : Option (List Char) :=
  match parseDoc (serialize t) with
  | none => none
  | some t2 => some (joinNl (blankFilter (splitNl (joinNl (declLine :: prettyPhys 0 t2)))))

/-- Normal (non-escape-hatch) conversion path of `convert_json_to_xml`:
map the JSON value under the root name `document` and pretty print. -/
def normalConvert (j : Json) : Except (List Char) (List Char) :=
  match prettyPipeline (json_to_xml_element j (toL "document")) with
  | none => Except.error (toL "XML conversion failed")
  | some out => Except.ok out

/-- Embedding of `JSONToXMLConverter.convert_json_to_xml` (main.py lines
85-122): the escape hatch returns the replaced string directly; every
other input goes through the tree conversion. -/
def convert_json_to_xml (j : Json) : Except (List Char) (List Char) :=
  match j with
  | Json.arr [Json.obj [(_, v)]] =>
    if is_xml_content v then
      match v with
      | Json.str s => Except.ok (apply_replacements s)
      | _ => normalConvert j
    else normalConvert j
  | _ => normalConvert j

/-- Attribute rendering of `_add_xml_elements_to_document` (main.py
lines 193-195): the f-string `name="value"` applies no escaping. -/
def renderAttrs (ats : List (List Char × List Char)) : List Char :=
  ats.flatMap (fun p => ' ' :: (p.1 ++ '=' :: '"' :: p.2 ++ ['"']))

mutual
/-- Embedding of `XMLToDocxConverter._add_xml_elements_to_document`
(main.py lines 176-215), returning the paragraph texts added for one
element: an element with non-blank text prints inline on one line (its
children, if any, are not visited); otherwise an element without
children prints in self-closing form; otherwise an open-tag line, the
recursively rendered children one level deeper, and a closing-tag
line. -/
def renderLines : Nat → XNode → List (List Char)
  | level, ⟨n, ats, t, cs⟩ =>
    if n.isEmpty then [] else
    let ind := indentL level
    let tagText := ind ++ '<' :: (n ++ renderAttrs ats)
    if !(pyStrip t).isEmpty then
      [tagText ++ '>' :: (pyStrip t ++ ('<' :: '/' :: n ++ ['>']))]
    else if cs.isEmpty then
      [tagText ++ toL "/>"]
    else
      (tagText ++ toL ">") :: renderList (level + 1) cs ++
        [ind ++ ('<' :: '/' :: n ++ ['>'])]

/-- Paragraphs of a list of child elements in order. -/
def renderList : Nat → List XNode → List (List Char)
  | _, [] => []
  | level, c :: cs => renderLines level c ++ renderList level cs
end

/-- Embedding of `XMLToDocxConverter.create_docx_from_xml` (main.py
lines 128-163), as the sequence of paragraph texts added to the
document after the fixed heading.  The first argument is the outcome of
the `ET.fromstring(xml_content)` call on line 131, passed in explicitly
(`none` standing for a raised `ParseError`, `some root` for the parsed
tree): on parse success the rendered tree walk, on parse failure the
literal marker `Raw XML Content:` followed by every non-blank line of
the raw string.  Totality of the function reflects that the fallback
path of lines 153-163 raises nothing. -/
def createDocxParagraphs (parsed : Option XNode) (xml : List Char) : List (List Char) :=
  match parsed with
  | some root => renderLines 0 root
  | none => toL "Raw XML Content:" :: blankFilter (splitNl xml)

/-- Outcome of reading and decoding the uploaded body, standing for
`file.read()` followed by `content.decode("utf-8")` and
`json.loads`: either a Unicode decoding failure, a JSON syntax failure
(each with the diagnostic message of the underlying Python exception),
or a parsed JSON value. -/
inductive BodyOutcome where
  | unicodeError (msg : List Char)
  | jsonError (msg : List Char)
  | parsed (j : Json)

/-- HTTP outcome of the endpoint: a status code and the detail (or, for
a success, empty detail). -/
structure HttpReply where
  status : Nat
  detail : List Char

/-- Embedding of the `POST /convert-json-to-docx/` handler (main.py
lines 223-284): reject filenames not ending in `.json` with 400, map
decode and parse failures to 400 with the diagnostic appended to a fixed
message, surface conversion failures as 500, and return the document
response otherwise. -/
def convert_json_to_docx (filename : List Char) (body : BodyOutcome) : HttpReply :=
  if !(endsL (toL ".json") filename) then ⟨400, toL "Only JSON files are accepted"⟩
  else
    match body with
    | BodyOutcome.jsonError m => ⟨400, toL "Invalid JSON format: " ++ m⟩
    | BodyOutcome.unicodeError m => ⟨400, toL "File encoding error: " ++ m⟩
    | BodyOutcome.parsed j =>
      match convert_json_to_xml j with
      | Except.error m => ⟨500, m⟩
      | Except.ok _ => ⟨200, []⟩

/-- Characters that survive an XML serialize/parse round trip without
normalization: tab, newline, and the valid characters from space
upwards.  Carriage return is excluded because a conforming parser
rewrites it. -/
def goodTextChar (c : Char) : Bool :=
  c = '\t' || c = '\n' || (32 ≤ c.toNat && c.toNat ≠ 65534 && c.toNat ≠ 65535)

mutual
/-- Trees on which the serializer output is accepted by the
namespace-aware parsers: every name is non-empty, starts with an XML
name-start character and continues with XML name characters — both
classes colon-free, since an undeclared prefix is rejected — there are
no attributes, text content uses only round-trippable characters, and
no element mixes text with children. -/
def xmlSafe : XNode → Bool
  | ⟨n, ats, t, cs⟩ =>
    (match n with
     | [] => false
     | c :: rest => nameStartOk c && rest.all nameCharOk) &&
    ats.isEmpty && t.all goodTextChar && (t.isEmpty || cs.isEmpty) && xmlSafeList cs

/-- Conjunction of `xmlSafe` over a list of trees. -/
def xmlSafeList : List XNode → Bool
  | [] => true
  | c :: cs => xmlSafe c && xmlSafeList cs
end

/-- Word decomposition of a text: maximal runs of non-whitespace
characters.  Two texts are equal modulo whitespace when their word
decompositions agree. -/
def wordsOfAux : List Char → List Char → List (List Char)
  | acc, [] => if acc.isEmpty then [] else [acc.reverse]
  | acc, c :: rest =>
    if isWsX c then
      if acc.isEmpty then wordsOfAux [] rest else acc.reverse :: wordsOfAux [] rest
    else wordsOfAux (c :: acc) rest

/-- Words of a text. -/
def wordsOf (s : List Char) : List (List Char) := wordsOfAux [] s

/-- Equality of texts modulo whitespace. -/
def textEquiv (a b : List Char) : Bool := wordsOf a == wordsOf b

mutual
/-- Isomorphism of XML trees modulo whitespace: equal names, equal
attributes, texts equal modulo whitespace, and children pairwise
isomorphic in order. -/
def isoTree : XNode → XNode → Bool
  | ⟨n1, a1, t1, c1⟩, ⟨n2, a2, t2, c2⟩ =>
    n1 == n2 && a1 == a2 && textEquiv t1 t2 && isoList c1 c2

/-- Pairwise isomorphism of child lists. -/
def isoList : List XNode → List XNode → Bool
  | [], [] => true
  | x :: xs, y :: ys => isoTree x y && isoList xs ys
  | _, _ => false
end

/-- Interior filter on the physical lines of a text: the last segment is
always kept, every earlier blank segment is dropped. -/
def innerFilter : List (List Char) → List (List Char)
  | [] => []
  | [l] => [l]
  | l :: ls => if (pyStrip l).isEmpty then innerFilter ls else l :: innerFilter ls

/-- Effect of the global blank-line filter on a text that prints inline:
the first and last physical segments sit on lines that also carry markup
and therefore survive, while blank interior segments disappear. -/
def remInner (s : List Char) : List Char :=
  match splitNl s with
  | [] => s
  | [_] => s
  | l :: ls => joinNl (l :: innerFilter ls)

mutual
/-- Tree re-read after pretty printing and blank-line removal: leaf
texts lose their blank interior physical lines, everything else is
untouched. -/
def remT : XNode → XNode
  | ⟨n, ats, t, cs⟩ => ⟨n, ats, remInner t, remTList cs⟩

/-- The map of `remT` over children. -/
def remTList : List XNode → List XNode
  | [] => []
  | c :: cs => remT c :: remTList cs
end

mutual
/-- All element names occurring in a tree, in document order. -/
def xmlNames : XNode → List (List Char)
  | ⟨n, _, _, cs⟩ => n :: xmlNamesList cs

/-- Names collected over a list of trees. -/
def xmlNamesList : List XNode → List (List Char)
  | [] => []
  | c :: cs => xmlNames c ++ xmlNamesList cs
end

/-- Name pattern claimed by the specification: one or more characters
from `[A-Za-z0-9:@._-]`. -/
def matchesNamePattern (n : List Char) : Bool := !n.isEmpty && n.all allowedNameChar

/-- Unfolding of the dictionary children as a map over the field list. -/
theorem jxFields_eq (kvs : List (List Char × Json)) :
    jxFields kvs = kvs.map (fun kv => json_to_xml_element kv.2 kv.1) := by
  induction kvs with
  | nil => rfl
  | cons kv rest ih => cases kv; simp [jxFields, ih]

/-- Unfolding of the list children as a map over the enumerated items. -/
theorem jxItems_eq (xs : List Json) (i : Nat) :
    jxItems xs i = (List.enumFrom i xs).map (fun p => json_to_xml_element p.2 (itemTag p.1)) := by
  induction xs generalizing i with
  | nil => rfl
  | cons x rest ih => simp [jxItems, List.enumFrom, ih]

/-- C4: the character substitution of Variant B replaces every
underscore by a colon and every dollar sign by an at-sign, applying the
underscore rule first and never re-scanning substituted output, so the
chained replacements equal one character-wise pass; in particular the
object with key `x_y` and value `a$b` maps to a child tagged `x:y` with
text `a@b`. -/
theorem claim_C4 :
    (∀ s : List Char, apply_replacements s =
        s.map (fun c => if c = '_' then ':' else if c = '$' then '@' else c)) ∧
    childTags (json_to_xml_element (Json.obj [(toL "x_y", Json.str (toL "a$b"))]) (toL "document"))
        = [toL "x:y"] ∧
    childTexts (json_to_xml_element (Json.obj [(toL "x_y", Json.str (toL "a$b"))]) (toL "document"))
        = [toL "a@b"] := by
  refine ⟨?_, rfl, rfl⟩
  intro s
  unfold apply_replacements pyReplace
  rw [List.map_map]
  congr 1
  funext c
  by_cases h1 : c = '_'
  · subst h1; rfl
  · by_cases h2 : c = '$'
    · subst h2; rfl
    · simp [Function.comp, h1, h2]

/-- C1 counterexample: on the code, mapping the object with keys `a` and
`b` (value `[1, 2]`) under the default root yields root child tags
`a, b` only — the array items become grandchildren named `item:0`,
`item:1`, not siblings named `b`. -/
theorem claim_C1_counterexample :
    childTags (json_to_xml_element
        (Json.obj [(toL "a", Json.num 1), (toL "b", Json.arr [Json.num 1, Json.num 2])])
        (toL "root"))
      = [toL "a", toL "b"] ∧
    [toL "a", toL "b"] ≠ [toL "a", toL "b", toL "b"] := by
  exact ⟨rfl, by decide⟩

/-- C1 amended: for a key whose value is an array the mapper emits one
child element named after that key, whose own children are the array
items in order, each named `item_<index>` (which the substitution step
renders as `item:<index>`); object fields map in insertion order to
children named by their keys.  On the spec example the root children are
tagged `a, b`, and the `b` element holds `item:0`, `item:1` with texts
`1`, `2`. -/
theorem claim_C1_amended :
    (∀ n kvs, (json_to_xml_element (Json.obj kvs) n).children
        = kvs.map (fun kv => json_to_xml_element kv.2 kv.1)) ∧
    (∀ n xs, (json_to_xml_element (Json.arr xs) n).children
        = (List.enumFrom 0 xs).map (fun p => json_to_xml_element p.2 (itemTag p.1))) ∧
    json_to_xml_element
        (Json.obj [(toL "a", Json.num 1), (toL "b", Json.arr [Json.num 1, Json.num 2])])
        (toL "root")
      = ⟨toL "root", [], [],
          [⟨toL "a", [], toL "1", []⟩,
           ⟨toL "b", [], [],
             [⟨toL "item:0", [], toL "1", []⟩, ⟨toL "item:1", [], toL "2", []⟩]⟩]⟩ := by
  refine ⟨fun n kvs => ?_, fun n xs => ?_, rfl⟩
  · show jxFields kvs = _
    exact jxFields_eq kvs
  · show jxItems xs 0 = _
    exact jxItems_eq xs 0

/-- C3 counterexample: on the code, the JSON null maps to an element
whose text is the four-character string `None` (Python `str(None)`), not
the empty string. -/
theorem claim_C3_counterexample :
    (json_to_xml_element Json.null (toL "value")).text = toL "None" ∧
    toL "None" ≠ ([] : List Char) := by
  exact ⟨rfl, by decide⟩

/-- C3 amended: the JSON null maps to an element whose text is `None`;
in general every scalar value maps to an element whose text is the
Python string form of the value with the character substitutions
applied. -/
theorem claim_C3_amended :
    (∀ n, (json_to_xml_element Json.null n).text = toL "None") ∧
    (∀ v n, v.isScalar = true →
        (json_to_xml_element v n).text = apply_replacements (pyStr v)) := by
  constructor
  · intro n; rfl
  · intro v n hv
    cases v with
    | null => rfl
    | bool b => rfl
    | num m => rfl
    | str s => rfl
    | arr xs => simp [Json.isScalar] at hv
    | obj kvs => simp [Json.isScalar] at hv

/-- Witness for C3 amended at concrete scalars. -/
theorem claim_C3_witness :
    (json_to_xml_element Json.null (toL "k")).text = toL "None" ∧
    Json.isScalar (Json.bool true) = true ∧
    (json_to_xml_element (Json.bool true) (toL "k")).text
      = apply_replacements (pyStr (Json.bool true)) := by
  exact ⟨claim_C3_amended.1 (toL "k"), by decide,
    claim_C3_amended.2 (Json.bool true) (toL "k") (by decide)⟩

/-- C5 counterexample: the empty JSON key produces an element whose name
is empty, which does not match the claimed pattern
`[A-Za-z0-9:@._-]+`. -/
theorem claim_C5_counterexample :
    ([] : List Char) ∈ xmlNames
        (json_to_xml_element (Json.obj [(toL "", Json.num 1)]) (toL "document")) ∧
    matchesNamePattern [] = false := by
  exact ⟨by decide, rfl⟩

mutual
/-- Size measure on JSON values, used for strong induction. -/
def jsize : Json → Nat
  | Json.arr xs => 1 + jsizeList xs
  | Json.obj kvs => 1 + jsizeFields kvs
  | _ => 1

/-- Size of a list of JSON values. -/
def jsizeList : List Json → Nat
  | [] => 0
  | x :: xs => jsize x + jsizeList xs

/-- Size of a field list. -/
def jsizeFields : List (List Char × Json) → Nat
  | [] => 0
  | kv :: rest => jsize kv.2 + jsizeFields rest
end

/-- Every JSON value has positive size. -/
theorem jsize_pos (j : Json) : 1 ≤ jsize j := by
  cases j <;> simp [jsize]

/-- Size of a field value is bounded by the size of the field list. -/
theorem jsize_mem_fields (kvs : List (List Char × Json)) (kv : List Char × Json)
    (h : kv ∈ kvs) : jsize kv.2 ≤ jsizeFields kvs := by
  induction kvs with
  | nil => cases h
  | cons kv0 rest ih =>
    rcases List.mem_cons.mp h with rfl | h2
    · simp [jsizeFields]
    · have := ih h2
      simp [jsizeFields]
      omega

/-- Size of a list member is bounded by the size of the list. -/
theorem jsize_mem_list (xs : List Json) (x : Json) (h : x ∈ xs) :
    jsize x ≤ jsizeList xs := by
  induction xs with
  | nil => cases h
  | cons x0 rest ih =>
    rcases List.mem_cons.mp h with rfl | h2
    · simp [jsizeList]
    · have := ih h2
      simp [jsizeList]
      omega

/-- Membership in the collected names of a list of trees. -/
theorem mem_xmlNamesList (l : List XNode) (m : List Char) :
    m ∈ xmlNamesList l ↔ ∃ t ∈ l, m ∈ xmlNames t := by
  induction l with
  | nil => simp [xmlNamesList]
  | cons c cs ih => simp [xmlNamesList, ih]

/-- Second components of an enumerated list are members of the list. -/
theorem mem_of_mem_enumFrom (xs : List Json) (i : Nat) (p : Nat × Json)
    (h : p ∈ List.enumFrom i xs) : p.2 ∈ xs := by
  induction xs generalizing i with
  | nil => cases h
  | cons x rest ih =>
    rcases List.mem_cons.mp h with h1 | h2
    · rw [h1]
      exact List.mem_cons_self x rest
    · exact List.mem_cons_of_mem _ (ih (i + 1) h2)

/-- The cleaned name uses only allowed characters. -/
theorem cleanedOf_allowed (s : List Char) :
    (cleanedOf s).all allowedNameChar = true := by
  unfold cleanedOf
  rw [List.all_map]
  apply List.all_eq_true.mpr
  intro c _
  by_cases h : allowedNameChar c = true
  · simp [Function.comp, h]
  · simp only [Function.comp, h]
    rfl

/-- The sanitized name uses only allowed characters. -/
theorem sanitizeName_allowed (s : List Char) :
    (sanitizeName s).all allowedNameChar = true := by
  unfold sanitizeName
  rcases hcl : cleanedOf s with _ | ⟨c, rest⟩
  · rfl
  · have hall := cleanedOf_allowed s
    rw [hcl] at hall
    show (if c.isDigit = true then toL "item_" ++ (c :: rest) else c :: rest).all
        allowedNameChar = true
    by_cases hd : c.isDigit = true
    · rw [if_pos hd, List.all_append]
      refine (Bool.and_eq_true _ _).mpr ⟨?_, hall⟩
      decide
    · rw [if_neg hd]
      exact hall

/-- The sanitized name never starts with a digit. -/
theorem sanitizeName_head_not_digit (s : List Char) (c : Char) (rest : List Char)
    (h : sanitizeName s = c :: rest) : c.isDigit = false := by
  unfold sanitizeName at h
  rcases hcl : cleanedOf s with _ | ⟨c0, r0⟩ <;> rw [hcl] at h
  · cases h
  · have h2 : (if c0.isDigit = true then toL "item_" ++ (c0 :: r0) else c0 :: r0)
        = c :: rest := h
    by_cases hd : c0.isDigit = true
    · rw [if_pos hd] at h2
      have hc : c = 'i' := by
        have h3 : 'i' :: (toL "tem_" ++ (c0 :: r0)) = c :: rest := h2
        exact ((List.cons.injEq _ _ _ _).mp h3).1.symm
      rw [hc]
      rfl
    · rw [if_neg hd] at h2
      have hc : c = c0 := ((List.cons.injEq _ _ _ _).mp h2).1.symm
      rw [hc]
      exact Bool.eq_false_iff.mpr hd

/-- Every name in a tree built by the mapper is the sanitization of some
source string. -/
theorem mapper_names_sanitized :
    ∀ fuel j, jsize j ≤ fuel → ∀ n m, m ∈ xmlNames (json_to_xml_element j n) →
      ∃ s, m = sanitizeName s := by
  intro fuel
  induction fuel with
  | zero =>
    intro j hj
    exact absurd hj (by have := jsize_pos j; omega)
  | succ f ih =>
    intro j hj n m hm
    cases j with
    | obj kvs =>
      have hb : jsizeFields kvs ≤ f := by
        simp only [jsize] at hj; omega
      have hm2 : m ∈ sanitizeName n :: xmlNamesList (jxFields kvs) := hm
      rcases List.mem_cons.mp hm2 with rfl | hm3
      · exact ⟨n, rfl⟩
      · rw [jxFields_eq] at hm3
        obtain ⟨t, ht, hmt⟩ := (mem_xmlNamesList _ _).mp hm3
        obtain ⟨kv, hkv, rfl⟩ := List.mem_map.mp ht
        exact ih kv.2 (le_trans (jsize_mem_fields kvs kv hkv) hb) kv.1 m hmt
    | arr xs =>
      have hb : jsizeList xs ≤ f := by
        simp only [jsize] at hj; omega
      have hm2 : m ∈ sanitizeName n :: xmlNamesList (jxItems xs 0) := hm
      rcases List.mem_cons.mp hm2 with rfl | hm3
      · exact ⟨n, rfl⟩
      · rw [jxItems_eq] at hm3
        obtain ⟨t, ht, hmt⟩ := (mem_xmlNamesList _ _).mp hm3
        obtain ⟨p, hp, rfl⟩ := List.mem_map.mp ht
        have hpx : p.2 ∈ xs := mem_of_mem_enumFrom xs 0 p hp
        exact ih p.2 (le_trans (jsize_mem_list xs p.2 hpx) hb) (itemTag p.1) m hmt
    | null =>
      have hm2 : m ∈ [sanitizeName n] := hm
      rcases List.mem_singleton.mp hm2 with rfl
      exact ⟨n, rfl⟩
    | bool b =>
      have hm2 : m ∈ [sanitizeName n] := hm
      rcases List.mem_singleton.mp hm2 with rfl
      exact ⟨n, rfl⟩
    | num k =>
      have hm2 : m ∈ [sanitizeName n] := hm
      rcases List.mem_singleton.mp hm2 with rfl
      exact ⟨n, rfl⟩
    | str s0 =>
      have hm2 : m ∈ [sanitizeName n] := hm
      rcases List.mem_singleton.mp hm2 with rfl
      exact ⟨n, rfl⟩

/-- C5 amended: every element name in a tree built by the mapper is made
only of characters from `[A-Za-z0-9:@._-]` (with the empty name arising
exactly from an empty source key, so the `+` of the claimed pattern must
be weakened to `*`) and never starts with a digit; and whenever the
cleaned name starts with a digit the sanitizer prefixes `item_`. -/
theorem claim_C5_amended :
    (∀ j n m, m ∈ xmlNames (json_to_xml_element j n) →
        m.all allowedNameChar = true ∧ ∀ c rest, m = c :: rest → c.isDigit = false) ∧
    (∀ s c rest, cleanedOf s = c :: rest → c.isDigit = true →
        sanitizeName s = toL "item_" ++ (c :: rest)) := by
  constructor
  · intro j n m hm
    obtain ⟨s, rfl⟩ := mapper_names_sanitized (jsize j) j (le_refl _) n m hm
    exact ⟨sanitizeName_allowed s, fun c rest h => sanitizeName_head_not_digit s c rest h⟩
  · intro s c rest h hd
    unfold sanitizeName
    rw [h]
    show (if c.isDigit = true then toL "item_" ++ (c :: rest) else c :: rest)
        = toL "item_" ++ (c :: rest)
    rw [if_pos hd]

/-- Witness for C5 amended at a concrete digit-led key. -/
theorem claim_C5_witness :
    ((toL "item_9a") ∈ xmlNames
        (json_to_xml_element (Json.obj [(toL "9a", Json.null)]) (toL "document")) ∧
     (toL "item_9a").all allowedNameChar = true ∧
     (∀ c rest, toL "item_9a" = c :: rest → c.isDigit = false)) ∧
    (cleanedOf (toL "9a") = '9' :: toL "a" ∧
     sanitizeName (toL "9a") = toL "item_" ++ ('9' :: toL "a")) := by
  refine ⟨⟨by decide, ?_, ?_⟩, by decide, ?_⟩
  · exact (claim_C5_amended.1 (Json.obj [(toL "9a", Json.null)]) (toL "document")
      (toL "item_9a") (by decide)).1
  · exact (claim_C5_amended.1 (Json.obj [(toL "9a", Json.null)]) (toL "document")
      (toL "item_9a") (by decide)).2
  · exact claim_C5_amended.2 (toL "9a") '9' (toL "a") (by decide) (by decide)

/-- The root name of any mapped tree is the sanitized requested name. -/
theorem mapper_root_name (j : Json) (n : List Char) :
    (json_to_xml_element j n).name = sanitizeName n := by
  cases j <;> rfl

/-- Inputs that fail the escape-hatch shape test take the normal tree
conversion path. -/
theorem convert_nonhatch (j : Json) (h : isEscapeHatch j = false) :
    convert_json_to_xml j = normalConvert j := by
  unfold convert_json_to_xml
  split
  · rename_i k v
    have hv : is_xml_content v = false := by
      simpa [isEscapeHatch] using h
    rw [hv]
    simp
  · rfl

/-- C10: for every input that does not match the escape-hatch shape the
converter builds the tree under the fixed root name `document` (which
the sanitizer leaves unchanged); no caller-supplied root name exists on
this pipeline. -/
theorem claim_C10 (j : Json) (h : isEscapeHatch j = false) :
    convert_json_to_xml j = normalConvert j ∧
    normalConvert j
      = (match prettyPipeline (json_to_xml_element j (toL "document")) with
         | none => Except.error (toL "XML conversion failed")
         | some out => Except.ok out) ∧
    (json_to_xml_element j (toL "document")).name = toL "document" := by
  refine ⟨convert_nonhatch j h, rfl, ?_⟩
  rw [mapper_root_name]
  rfl

/-- Witness for C10 at the JSON null. -/
theorem claim_C10_witness :
    isEscapeHatch Json.null = false ∧
    convert_json_to_xml Json.null = normalConvert Json.null ∧
    (json_to_xml_element Json.null (toL "document")).name = toL "document" := by
  exact ⟨rfl, (claim_C10 Json.null rfl).1, (claim_C10 Json.null rfl).2.2⟩

/-- C2: whenever the input is a one-element array holding a one-key
object whose value passes the XML-content test (a string that, after
stripping, starts with `<?xml` and ends with `>`), the converter
returns that string with the character substitutions applied, bypassing
tree construction; every other input takes the normal tree conversion.
The spec example returns its XML payload verbatim. -/
theorem claim_C2 :
    (∀ k v, is_xml_content v = true →
      ∃ s, v = Json.str s ∧
        convert_json_to_xml (Json.arr [Json.obj [(k, v)]])
          = Except.ok (apply_replacements s)) ∧
    (∀ j, isEscapeHatch j = false → convert_json_to_xml j = normalConvert j) ∧
    convert_json_to_xml (Json.arr [Json.obj [(toL "raw",
        Json.str (toL "<?xml version=\"1.0\"?><note>hi</note>"))]])
      = Except.ok (toL "<?xml version=\"1.0\"?><note>hi</note>") := by
  refine ⟨?_, convert_nonhatch, by rfl⟩
  intro k v hx
  cases v with
  | str s =>
    refine ⟨s, rfl, ?_⟩
    show (if is_xml_content (Json.str s) then
            match Json.str s with
            | Json.str s => Except.ok (apply_replacements s)
            | _ => normalConvert (Json.arr [Json.obj [(k, Json.str s)]])
          else normalConvert (Json.arr [Json.obj [(k, Json.str s)]]))
        = Except.ok (apply_replacements s)
    rw [if_pos hx]
  | null => simp [is_xml_content] at hx
  | bool b => simp [is_xml_content] at hx
  | num m => simp [is_xml_content] at hx
  | arr xs => simp [is_xml_content] at hx
  | obj kvs => simp [is_xml_content] at hx

/-- Witness for C2 at the spec's escape-hatch example. -/
theorem claim_C2_witness :
    is_xml_content (Json.str (toL "<?xml version=\"1.0\"?><note>hi</note>")) = true ∧
    (∃ s, Json.str (toL "<?xml version=\"1.0\"?><note>hi</note>") = Json.str s ∧
      convert_json_to_xml (Json.arr [Json.obj [(toL "raw",
          Json.str (toL "<?xml version=\"1.0\"?><note>hi</note>"))]])
        = Except.ok (apply_replacements s)) ∧
    isEscapeHatch Json.null = false ∧
    convert_json_to_xml Json.null = normalConvert Json.null := by
  exact ⟨by decide,
    claim_C2.1 (toL "raw") (Json.str (toL "<?xml version=\"1.0\"?><note>hi</note>")) (by decide),
    rfl, claim_C2.2.1 Json.null rfl⟩

/-- C7: whenever the XML parse step fails — the first argument of the
renderer is the embedded outcome of the `ET.fromstring` call, `none`
standing for the `ParseError` the not-well-formed inputs raise — the
document renderer does not fail: it produces the literal marker
paragraph `Raw XML Content:` followed by one paragraph per non-blank
line of the raw input, in order, and every paragraph after the marker
is a non-blank line of the input. -/
theorem claim_C7 (s : List Char) :
    createDocxParagraphs none s
      = toL "Raw XML Content:" :: (splitNl s).filter (fun l => !(pyStrip l).isEmpty) ∧
    (∀ l ∈ (createDocxParagraphs none s).tail,
      l ∈ splitNl s ∧ (pyStrip l).isEmpty = false) ∧
    startsL (toL "Raw XML Content") (toL "Raw XML Content:") = true := by
  refine ⟨rfl, ?_, rfl⟩
  intro l hl
  have hl2 : l ∈ blankFilter (splitNl s) := hl
  unfold blankFilter at hl2
  have hmf := List.mem_filter.mp hl2
  exact ⟨hmf.1, by simpa using hmf.2⟩

/-- C8 counterexample: a node with non-blank text and a child is
rendered by the code as a single inline line; the child element is never
rendered, contradicting the claimed open-tag/children/close-tag form for
nodes with both text and children. -/
theorem claim_C8_counterexample :
    renderLines 0 ⟨toL "a", [], toL "x", [⟨toL "b", [], [], []⟩]⟩ = [toL "<a>x</a>"] ∧
    (renderLines 0 ⟨toL "a", [], toL "x", [⟨toL "b", [], [], []⟩]⟩).length = 1 ∧
    ∀ l ∈ renderLines 0 ⟨toL "a", [], toL "x", [⟨toL "b", [], [], []⟩]⟩, 'b' ∉ l := by
  refine ⟨rfl, rfl, ?_⟩
  decide

/-- C8 amended: for every node with a non-empty tag, the renderer emits
one inline line whenever the stripped text is non-blank (regardless of
children, which are then not rendered); a self-closing line when the
text is blank and there are no children; and otherwise an open-tag line,
the recursively rendered children one level deeper, and a closing-tag
line. -/
theorem claim_C8_amended :
    ∀ level n ats t cs, n ≠ [] →
      ((pyStrip t ≠ [] →
         renderLines level ⟨n, ats, t, cs⟩
           = [(indentL level ++ '<' :: (n ++ renderAttrs ats)) ++
               '>' :: (pyStrip t ++ ('<' :: '/' :: n ++ ['>']))]) ∧
       (pyStrip t = [] → cs = [] →
         renderLines level ⟨n, ats, t, cs⟩
           = [(indentL level ++ '<' :: (n ++ renderAttrs ats)) ++ toL "/>"]) ∧
       (pyStrip t = [] → cs ≠ [] →
         renderLines level ⟨n, ats, t, cs⟩
           = ((indentL level ++ '<' :: (n ++ renderAttrs ats)) ++ toL ">") ::
               (renderList (level + 1) cs ++
                [indentL level ++ ('<' :: '/' :: n ++ ['>'])]))) := by
  intro level n ats t cs hne
  have h1 : n.isEmpty = false := by
    cases n with
    | nil => exact absurd rfl hne
    | cons a b => rfl
  refine ⟨?_, ?_, ?_⟩
  · intro hts
    have h2 : (pyStrip t).isEmpty = false := by
      rcases hps : pyStrip t with _ | ⟨a, b⟩
      · exact absurd hps hts
      · rfl
    simp [renderLines, h1, h2]
  · intro hts hcs
    subst hcs
    simp [renderLines, h1, hts]
  · intro hts hcs
    have h2 : cs.isEmpty = false := by
      rcases cs with _ | ⟨c0, cs0⟩
      · exact absurd rfl hcs
      · rfl
    simp [renderLines, h1, hts, h2]

/-- Witness for C8 amended on three concrete nodes, one per case. -/
theorem claim_C8_witness :
    (toL "a" ≠ [] ∧
     renderLines 1 ⟨toL "a", [], toL " x ", [⟨toL "b", [], [], []⟩]⟩
       = [(indentL 1 ++ '<' :: (toL "a" ++ renderAttrs [])) ++
           '>' :: (pyStrip (toL " x ") ++ ('<' :: '/' :: toL "a" ++ ['>']))]) ∧
    renderLines 0 ⟨toL "c", [], toL " ", []⟩
      = [(indentL 0 ++ '<' :: (toL "c" ++ renderAttrs [])) ++ toL "/>"] ∧
    renderLines 0 ⟨toL "d", [], [], [⟨toL "b", [], [], []⟩]⟩
      = ((indentL 0 ++ '<' :: (toL "d" ++ renderAttrs [])) ++ toL ">") ::
          (renderList 1 [⟨toL "b", [], [], []⟩] ++
           [indentL 0 ++ ('<' :: '/' :: toL "d" ++ ['>'])]) := by
  refine ⟨⟨by decide, ?_⟩, ?_, ?_⟩
  · exact (claim_C8_amended 1 (toL "a") [] (toL " x ") [⟨toL "b", [], [], []⟩]
      (by decide)).1 (by decide)
  · exact (claim_C8_amended 0 (toL "c") [] (toL " ") [] (by decide)).2.1 (by decide) rfl
  · exact (claim_C8_amended 0 (toL "d") [] [] [⟨toL "b", [], [], []⟩]
      (by decide)).2.2 rfl (List.cons_ne_nil _ _)

/-- C9: the endpoint answers 400 exactly when the filename does not end
in `.json` or the body fails UTF-8 decoding or JSON parsing; in the
decode and parse cases the detail embeds the underlying diagnostic
message; a conversion failure on parsed input answers 500. -/
theorem claim_C9 :
    ∀ f b,
      (((convert_json_to_docx f b).status = 400) ↔
        (endsL (toL ".json") f = false ∨
         (∃ m, b = BodyOutcome.unicodeError m) ∨
         (∃ m, b = BodyOutcome.jsonError m))) ∧
      (∀ m, endsL (toL ".json") f = true → b = BodyOutcome.jsonError m →
        (convert_json_to_docx f b).detail = toL "Invalid JSON format: " ++ m) ∧
      (∀ m, endsL (toL ".json") f = true → b = BodyOutcome.unicodeError m →
        (convert_json_to_docx f b).detail = toL "File encoding error: " ++ m) ∧
      (∀ j em, endsL (toL ".json") f = true → b = BodyOutcome.parsed j →
        convert_json_to_xml j = Except.error em →
        (convert_json_to_docx f b).status = 500) := by
  intro f b
  by_cases he : endsL (toL ".json") f = true
  · refine ⟨?_, ?_, ?_, ?_⟩
    · cases b with
      | unicodeError m =>
        simp only [convert_json_to_docx, he]
        constructor
        · intro _
          exact Or.inr (Or.inl ⟨m, rfl⟩)
        · intro _
          rfl
      | jsonError m =>
        simp only [convert_json_to_docx, he]
        constructor
        · intro _
          exact Or.inr (Or.inr ⟨m, rfl⟩)
        · intro _
          rfl
      | parsed j =>
        simp only [convert_json_to_docx, he]
        constructor
        · intro hst
          rcases hconv : convert_json_to_xml j with em | out <;>
            simp [hconv] at hst
        · rintro (hf | ⟨m, hm⟩ | ⟨m, hm⟩)
          · exact Bool.noConfusion hf
          · cases hm
          · cases hm
    · rintro m _ rfl
      simp [convert_json_to_docx, he]
    · rintro m _ rfl
      simp [convert_json_to_docx, he]
    · rintro j em _ rfl hconv
      simp [convert_json_to_docx, he, hconv]
  · have hf : endsL (toL ".json") f = false := by
      cases hv : endsL (toL ".json") f
      · rfl
      · exact absurd hv he
    have hst : (convert_json_to_docx f b).status = 400 := by
      simp [convert_json_to_docx, hf]
    refine ⟨iff_of_true hst (Or.inl hf), ?_, ?_, ?_⟩
    · intro m hm
      exact absurd hm he
    · intro m hm
      exact absurd hm he
    · intro j em hm
      exact absurd hm he

/-- Witness for C9 at concrete requests. -/
theorem claim_C9_witness :
    endsL (toL ".json") (toL "data.json") = true ∧
    (convert_json_to_docx (toL "data.json") (BodyOutcome.jsonError (toL "Expecting value"))).detail
      = toL "Invalid JSON format: " ++ toL "Expecting value" ∧
    (convert_json_to_docx (toL "data.txt") (BodyOutcome.parsed Json.null)).status = 400 := by
  refine ⟨by decide, ?_, ?_⟩
  · exact (claim_C9 (toL "data.json") (BodyOutcome.jsonError (toL "Expecting value"))).2.1
      (toL "Expecting value") (by decide) rfl
  · exact ((claim_C9 (toL "data.txt") (BodyOutcome.parsed Json.null)).1).mpr
      (Or.inl (by decide))

/-- Reduction of the closing-tag test when the second character is not a
slash. -/
theorem isCloseAhead_not_slash (d : Char) (x : List Char) (h : d ≠ '/') :
    isCloseAhead ('<' :: d :: x) = false := by
  rw [isCloseAhead.eq_def]
  split
  · rename_i heq
    rw [List.cons.injEq, List.cons.injEq] at heq
    exact absurd heq.2.1 h
  · rfl

/-- Reduction of the declaration test when the second character is not a
question mark. -/
theorem startsDecl_not_qm (d : Char) (x : List Char) (h : d ≠ '?') :
    startsDecl ('<' :: d :: x) = false := by
  rw [startsDecl.eq_def]
  split
  · rename_i heq
    rw [List.cons.injEq, List.cons.injEq] at heq
    exact absurd heq.2.1 h
  · rfl

/-- Reduction of the text scanner on an unescaped ordinary character. -/
theorem parseText_cons_other (c : Char) (rest : List Char) (h1 : c ≠ '<') (h2 : c ≠ '&') :
    parseText (c :: rest) = if parsedCharOk c then consText c (parseText rest) else none := by
  rw [parseText.eq_def]
  split
  all_goals rename_i heq
  all_goals
    first
    | exact List.noConfusion heq
    | (rw [List.cons.injEq] at heq
       first
       | exact absurd heq.1 h1
       | exact absurd heq.1 h2
       | rw [← heq.1, ← heq.2])

mutual
/-- Fuel required by `parseElem` to consume one serialized element. -/
def pneed : XNode → Nat
  | ⟨_, _, _, cs⟩ => 2 + pneedList cs

/-- Fuel required by `parseSibs` to consume a serialized child list. -/
def pneedList : List XNode → Nat
  | [] => 0
  | c :: cs => 1 + pneed c + pneedList cs
end

mutual
/-- Node count of a tree, used as an induction measure. -/
def nsize : XNode → Nat
  | ⟨_, _, _, cs⟩ => 1 + nsizeList cs

/-- Node count of a list of trees. -/
def nsizeList : List XNode → Nat
  | [] => 0
  | c :: cs => nsize c + nsizeList cs
end

/-- Take-while stops exactly at the first failing character. -/
theorem takeWhile_append_exact (p : Char → Bool) (xs : List Char) (y : Char)
    (ys : List Char) (hx : ∀ c ∈ xs, p c = true) (hy : p y = false) :
    (xs ++ y :: ys).takeWhile p = xs := by
  induction xs with
  | nil => simp [List.takeWhile, hy]
  | cons a l ih =>
    have ha : p a = true := hx a (List.mem_cons_self a l)
    simp only [List.cons_append, List.takeWhile_cons, ha, if_true]
    rw [ih (fun c hc => hx c (List.mem_cons_of_mem a hc))]

/-- Drop-while stops exactly at the first failing character. -/
theorem dropWhile_append_exact (p : Char → Bool) (xs : List Char) (y : Char)
    (ys : List Char) (hx : ∀ c ∈ xs, p c = true) (hy : p y = false) :
    (xs ++ y :: ys).dropWhile p = y :: ys := by
  induction xs with
  | nil => simp [List.dropWhile, hy]
  | cons a l ih =>
    have ha : p a = true := hx a (List.mem_cons_self a l)
    simp only [List.cons_append, List.dropWhile_cons, ha, if_true]
    exact ih (fun c hc => hx c (List.mem_cons_of_mem a hc))

/-- Name scanner on a valid name followed by a non-name character. -/
theorem parseName_exact (c0 : Char) (cs : List Char) (y : Char) (tail : List Char)
    (h0 : nameStartOk c0 = true) (hcs : ∀ c ∈ cs, nameCharOk c = true)
    (hy : nameCharOk y = false) :
    parseName (c0 :: (cs ++ y :: tail)) = some (c0 :: cs, y :: tail) := by
  unfold parseName
  simp only [h0, if_true]
  rw [takeWhile_append_exact _ _ _ _ hcs hy, dropWhile_append_exact _ _ _ _ hcs hy]

/-- Closing-tag scanner on the exact closing of a valid name. -/
theorem parseClose_exact (c0 : Char) (cs : List Char) (tail : List Char)
    (h0 : nameStartOk c0 = true) (hcs : ∀ c ∈ cs, nameCharOk c = true) :
    parseClose (c0 :: cs) ((c0 :: cs) ++ '>' :: tail) = some tail := by
  unfold parseClose
  rw [List.cons_append, parseName_exact c0 cs '>' tail h0 hcs (by decide)]
  simp [List.dropWhile, isWsX]

/-- Text scanner stops in front of an opening angle bracket. -/
theorem parseText_lt (x : List Char) : parseText ('<' :: x) = some ([], '<' :: x) := rfl

/-- Text scanner at the end of input. -/
theorem parseText_nil : parseText [] = some ([], []) := rfl

/-- Characters that are good for the round trip are accepted by the
scanner. -/
theorem goodTextChar_parsedOk (c : Char) (h : goodTextChar c = true) :
    parsedCharOk c = true := by
  by_cases h1 : c = '\t'
  · subst h1; rfl
  · by_cases h2 : c = '\n'
    · subst h2; rfl
    · unfold goodTextChar at h
      unfold parsedCharOk
      have e1 : decide (c = '\t') = false := decide_eq_false h1
      have e2 : decide (c = '\n') = false := decide_eq_false h2
      rw [e1, e2, Bool.false_or, Bool.false_or] at h
      rw [e1, e2, Bool.false_or, Bool.false_or, h, Bool.or_true]

/-- Text scanner over an ElementTree-escaped good text prepends the text
to whatever the scanner yields on the remainder. -/
theorem parseText_etEscape (s : List Char) (hs : ∀ c ∈ s, goodTextChar c = true)
    (tail : List Char) :
    parseText (etEscape s ++ tail)
      = match parseText tail with
        | none => none
        | some (t, r) => some (s ++ t, r) := by
  induction s with
  | nil =>
    show parseText tail = _
    rcases hpt : parseText tail with _ | ⟨t, r⟩ <;> simp
  | cons c s1 ih =>
    have hc : goodTextChar c = true := hs c (List.mem_cons_self c s1)
    have ih2 := ih (fun d hd => hs d (List.mem_cons_of_mem c hd))
    have hstep : etEscape (c :: s1) ++ tail = etEscChar c ++ (etEscape s1 ++ tail) := by
      show (etEscChar c ++ etEscape s1) ++ tail = _
      rw [List.append_assoc]
    rw [hstep]
    by_cases h1 : c = '&'
    · subst h1
      show consText '&' (parseText (etEscape s1 ++ tail)) = _
      rw [ih2]
      rcases hpt : parseText tail with _ | ⟨t, r⟩ <;> simp [consText]
    · by_cases h2 : c = '<'
      · subst h2
        show consText '<' (parseText (etEscape s1 ++ tail)) = _
        rw [ih2]
        rcases hpt : parseText tail with _ | ⟨t, r⟩ <;> simp [consText]
      · by_cases h3 : c = '>'
        · subst h3
          show consText '>' (parseText (etEscape s1 ++ tail)) = _
          rw [ih2]
          rcases hpt : parseText tail with _ | ⟨t, r⟩ <;> simp [consText]
        · have hesc : etEscChar c = [c] := by
            unfold etEscChar
            rw [if_neg h1, if_neg h2, if_neg h3]
          rw [hesc]
          show parseText (c :: (etEscape s1 ++ tail)) = _
          rw [parseText_cons_other c _ h2 h1,
            if_pos (goodTextChar_parsedOk c hc), ih2]
          rcases hpt : parseText tail with _ | ⟨t, r⟩ <;> simp [consText]

/-- Attribute scanner stops immediately on a non-whitespace character
that cannot start a name. -/
theorem parseAttrs_stop (f : Nat) (y : Char) (tail : List Char)
    (hy : isWsX y = false) (hn : nameStartOk y = false) :
    parseAttrs (f + 1) (y :: tail) = some ([], y :: tail) := by
  unfold parseAttrs
  simp [List.dropWhile_cons, hy, hn]

/-- Attribute scanner on the space before a self-closing slash. -/
theorem parseAttrs_space_slash (f : Nat) (tail : List Char) :
    parseAttrs (f + 1) (' ' :: '/' :: tail) = some ([], '/' :: tail) := by
  unfold parseAttrs
  simp [List.dropWhile_cons, isWsX, nameStartOk]

/-- Enumeration of the name-start character class. -/
theorem nameStartOk_cases (c : Char) (h : nameStartOk c = true) :
    c.isAlpha = true ∨ c = '_' := by
  unfold nameStartOk at h
  by_cases ha : c.isAlpha = true
  · exact Or.inl ha
  · by_cases hu : c = '_'
    · exact Or.inr hu
    · rw [Bool.not_eq_true] at ha
      rw [ha, decide_eq_false hu] at h
      exact Bool.noConfusion h

/-- Enumeration of the whitespace class. -/
theorem isWsX_cases (c : Char) (h : isWsX c = true) :
    c = ' ' ∨ c = '\t' ∨ c = '\n' ∨ c = '\r' := by
  unfold isWsX at h
  by_cases h1 : c = ' '
  · exact Or.inl h1
  · by_cases h2 : c = '\t'
    · exact Or.inr (Or.inl h2)
    · by_cases h3 : c = '\n'
      · exact Or.inr (Or.inr (Or.inl h3))
      · by_cases h4 : c = '\r'
        · exact Or.inr (Or.inr (Or.inr h4))
        · rw [decide_eq_false h1, decide_eq_false h2, decide_eq_false h3,
            decide_eq_false h4] at h
          exact Bool.noConfusion h

/-- Alphabetic characters are not whitespace. -/
theorem isAlpha_not_ws (c : Char) (h : c.isAlpha = true) : isWsX c = false := by
  cases hw : isWsX c
  · rfl
  · rcases isWsX_cases c hw with rfl | rfl | rfl | rfl <;> exact absurd h (by decide)

/-- A name-start character is also a name character. -/
theorem nameStartOk_nameCharOk (c : Char) (h : nameStartOk c = true) :
    nameCharOk c = true := by
  rcases nameStartOk_cases c h with ha | rfl
  · unfold nameCharOk
    rw [ha]
    rfl
  · decide

/-- A name-start character is not a slash. -/
theorem nameStartOk_ne_slash (c : Char) (h : nameStartOk c = true) : c ≠ '/' := by
  intro hc
  subst hc
  exact absurd h (by decide)

/-- A name-start character is not a question mark. -/
theorem nameStartOk_ne_qm (c : Char) (h : nameStartOk c = true) : c ≠ '?' := by
  intro hc
  subst hc
  exact absurd h (by decide)

/-- A name-start character is not whitespace. -/
theorem nameStartOk_not_ws (c : Char) (h : nameStartOk c = true) : isWsX c = false := by
  cases hw : isWsX c
  · rfl
  · rcases isWsX_cases c hw with rfl | rfl | rfl | rfl <;> exact absurd h (by decide)

/-- Destructuring of the tree-safety predicate. -/
theorem xmlSafe_parts (n : List Char) (ats : List (List Char × List Char))
    (t : List Char) (cs : List XNode) (h : xmlSafe ⟨n, ats, t, cs⟩ = true) :
    (∃ c0 cs0, n = c0 :: cs0 ∧ nameStartOk c0 = true ∧ ∀ c ∈ cs0, nameCharOk c = true) ∧
    ats = [] ∧ (∀ c ∈ t, goodTextChar c = true) ∧ (t = [] ∨ cs = []) ∧
    xmlSafeList cs = true := by
  unfold xmlSafe at h
  simp only [Bool.and_eq_true] at h
  obtain ⟨⟨⟨⟨hname, hats⟩, htext⟩, hsep⟩, hlist⟩ := h
  refine ⟨?_, ?_, ?_, ?_, hlist⟩
  · rcases n with _ | ⟨c0, cs0⟩
    · exact Bool.noConfusion hname
    · have hname2 : (nameStartOk c0 && cs0.all nameCharOk) = true := hname
      obtain ⟨h0, hall⟩ := Bool.and_eq_true_iff.mp hname2
      exact ⟨c0, cs0, rfl, h0, fun c hc => List.all_eq_true.mp hall c hc⟩
  · rcases ats with _ | ⟨a0, as0⟩
    · rfl
    · exact Bool.noConfusion hats
  · exact fun c hc => List.all_eq_true.mp htext c hc
  · rcases Bool.or_eq_true_iff.mp hsep with he | he
    · left
      rcases t with _ | ⟨t0, t1⟩
      · rfl
      · exact Bool.noConfusion he
    · right
      rcases cs with _ | ⟨c1, cs1⟩
      · rfl
      · exact Bool.noConfusion he

/-- Every serialized tree starts with an opening bracket followed by its
name-start character. -/
theorem serialize_shape (u : XNode) (h : xmlSafe u = true) :
    ∃ d z, serialize u = '<' :: d :: z ∧ nameStartOk d = true := by
  obtain ⟨n, ats, t, cs⟩ := u
  obtain ⟨⟨c0, cs0, rfl, h0, _⟩, _, _, _, _⟩ := xmlSafe_parts _ _ _ _ h
  refine ⟨c0, (cs0 ++ attrsSer ats) ++
    (if (t.isEmpty && cs.isEmpty) = true then toL " />"
     else '>' :: (etEscape t ++ serializeList cs ++ ('<' :: '/' :: (c0 :: cs0) ++ ['>']))),
    ?_, h0⟩
  show ('<' :: ((c0 :: cs0) ++ attrsSer ats)) ++
      (if (t.isEmpty && cs.isEmpty) = true then toL " />"
       else '>' :: (etEscape t ++ serializeList cs ++ ('<' :: '/' :: (c0 :: cs0) ++ ['>'])))
      = _
  simp [List.cons_append, List.append_assoc]

/-- Shape of an input accepted by the closing-tag test. -/
theorem isCloseAhead_shape (r : List Char) (h : isCloseAhead r = true) :
    ∃ y, r = '<' :: '/' :: y := by
  rw [isCloseAhead.eq_def] at h
  split at h
  · exact ⟨_, rfl⟩
  · exact Bool.noConfusion h

/-- Closing-tag scanner, cons-normalized variant. -/
theorem parseClose_exact2 (c0 : Char) (cs : List Char) (tail : List Char)
    (h0 : nameStartOk c0 = true) (hcs : ∀ c ∈ cs, nameCharOk c = true) :
    parseClose (c0 :: cs) (c0 :: (cs ++ '>' :: tail)) = some tail := by
  rw [← List.cons_append]
  exact parseClose_exact c0 cs tail h0 hcs

theorem parse_serialize :
    ∀ fuel,
      (∀ t, xmlSafe t = true → pneed t ≤ fuel →
        ∀ rest, parseElem fuel (serialize t ++ rest) = some (t, rest)) ∧
      (∀ l, xmlSafeList l = true → l ≠ [] → pneedList l ≤ fuel →
        ∀ tail, isCloseAhead tail = true →
          parseSibs fuel (serializeList l ++ tail) = some (l, tail)) := by
  intro fuel
  induction fuel with
  | zero =>
    constructor
    · rintro ⟨n, ats, t, cs⟩ _ hf
      rw [show pneed ⟨n, ats, t, cs⟩ = 2 + pneedList cs from rfl] at hf
      omega
    · rintro (_ | ⟨c1, cs1⟩) _ hne hf
      · exact absurd rfl hne
      · rw [show pneedList (c1 :: cs1) = 1 + pneed c1 + pneedList cs1 from rfl] at hf
        omega
  | succ f ih =>
    obtain ⟨ihE, ihS⟩ := ih
    constructor
    · rintro ⟨n, ats, t, cs⟩ hsafe hfuel rest
      obtain ⟨⟨c0, cs0, rfl, h0, hcs0⟩, rfl, htext, hsep, hlist⟩ :=
        xmlSafe_parts _ _ _ _ hsafe
      rw [show pneed ⟨c0 :: cs0, [], t, cs⟩ = 2 + pneedList cs from rfl] at hfuel
      obtain ⟨g, rfl⟩ : ∃ g, f = g + 1 := ⟨f - 1, by omega⟩
      rcases cs with _ | ⟨c1, cs1⟩
      · rcases t with _ | ⟨t0, t1⟩
        · -- self-closing element
          have hser : serialize ⟨c0 :: cs0, [], [], []⟩ ++ rest
              = '<' :: (c0 :: (cs0 ++ ' ' :: '/' :: '>' :: rest)) := by
            show ('<' :: ((c0 :: cs0) ++ attrsSer []) ++ toL " />") ++ rest = _
            simp [attrsSer, toL, List.append_assoc, List.cons_append]
          rw [hser]
          simp only [parseElem,
            parseName_exact c0 cs0 ' ' ('/' :: '>' :: rest) h0 hcs0 (by decide),
            parseAttrs_space_slash]
        · -- text element
          have hser : serialize ⟨c0 :: cs0, [], t0 :: t1, []⟩ ++ rest
              = '<' :: (c0 :: (cs0 ++ '>' :: (etEscape (t0 :: t1) ++
                  ('<' :: '/' :: ((c0 :: cs0) ++ '>' :: rest))))) := by
            show ('<' :: ((c0 :: cs0) ++ attrsSer []) ++
                (if ((t0 :: t1).isEmpty && ([] : List XNode).isEmpty) = true then toL " />"
                 else '>' :: (etEscape (t0 :: t1) ++ serializeList [] ++
                   ('<' :: '/' :: (c0 :: cs0) ++ ['>'])))) ++ rest = _
            simp [attrsSer, toL, serializeList, List.append_assoc, List.cons_append]
          rw [hser]
          simp only [parseElem,
            parseName_exact c0 cs0 '>'
              (etEscape (t0 :: t1) ++ ('<' :: '/' :: ((c0 :: cs0) ++ '>' :: rest)))
              h0 hcs0 (by decide),
            parseAttrs_stop g '>' _ (by decide) (by decide),
            parseText_etEscape (t0 :: t1) htext, parseText_lt,
            parseClose_exact c0 cs0 rest h0 hcs0]
          simp [isCloseAhead]
      · -- element with children
        have ht : t = [] := by
          rcases hsep with h | h
          · exact h
          · exact absurd h (List.cons_ne_nil c1 cs1)
        subst ht
        have hser : serialize ⟨c0 :: cs0, [], [], c1 :: cs1⟩ ++ rest
            = '<' :: (c0 :: (cs0 ++ '>' :: (serializeList (c1 :: cs1) ++
                ('<' :: '/' :: (c0 :: (cs0 ++ '>' :: rest)))))) := by
          show ('<' :: ((c0 :: cs0) ++ attrsSer []) ++
              (if (([] : List Char).isEmpty && (c1 :: cs1).isEmpty) = true then toL " />"
               else '>' :: (etEscape [] ++ serializeList (c1 :: cs1) ++
                 ('<' :: '/' :: (c0 :: cs0) ++ ['>'])))) ++ rest = _
          simp [attrsSer, toL, etEscape, List.append_assoc, List.cons_append]
        rw [hser]
        obtain ⟨hs1, hsrest⟩ := Bool.and_eq_true_iff.mp hlist
        obtain ⟨d, z, hshape, hd⟩ := serialize_shape c1 hs1
        have hz : serializeList (c1 :: cs1) ++ ('<' :: '/' :: (c0 :: (cs0 ++ '>' :: rest)))
            = '<' :: (d :: (z ++ (serializeList cs1 ++
                ('<' :: '/' :: (c0 :: (cs0 ++ '>' :: rest)))))) := by
          show (serialize c1 ++ serializeList cs1) ++ _ = _
          rw [hshape]
          simp [List.append_assoc, List.cons_append]
        have hsibs := ihS (c1 :: cs1) hlist (List.cons_ne_nil c1 cs1)
            (by omega)
            ('<' :: '/' :: (c0 :: (cs0 ++ '>' :: rest))) rfl
        rw [hz] at hsibs
        simp only [parseElem,
          parseName_exact c0 cs0 '>' _ h0 hcs0 (by decide),
          parseAttrs_stop g '>' _ (by decide) (by decide)]
        rw [hz]
        simp only [parseText_lt,
          isCloseAhead_not_slash d _ (nameStartOk_ne_slash d hd)]
        simp [hsibs, parseClose_exact2 c0 cs0 rest h0 hcs0, isCloseAhead]
    · rintro (_ | ⟨c1, cs1⟩) hsafeL hne hfuel tail htail
      · exact absurd rfl hne
      · obtain ⟨hs1, hsrest⟩ := Bool.and_eq_true_iff.mp hsafeL
        rw [show pneedList (c1 :: cs1) = 1 + pneed c1 + pneedList cs1 from rfl] at hfuel
        have hassoc : serializeList (c1 :: cs1) ++ tail
            = serialize c1 ++ (serializeList cs1 ++ tail) := by
          show (serialize c1 ++ serializeList cs1) ++ tail = _
          rw [List.append_assoc]
        rw [hassoc]
        simp only [parseSibs, ihE c1 hs1 (by omega) (serializeList cs1 ++ tail)]
        rcases cs1 with _ | ⟨c2, cs2⟩
        · obtain ⟨y, rfl⟩ := isCloseAhead_shape tail htail
          simp [parseText_lt, isCloseAhead, serializeList]
        · obtain ⟨d, z, hshape, hd⟩ := serialize_shape c2 (Bool.and_eq_true_iff.mp hsrest).1
          have hz2 : serializeList (c2 :: cs2) ++ tail
              = '<' :: (d :: (z ++ (serializeList cs2 ++ tail))) := by
            show (serialize c2 ++ serializeList cs2) ++ tail = _
            rw [hshape]
            simp [List.append_assoc, List.cons_append]
          have hsibs2 := ihS (c2 :: cs2) hsrest (List.cons_ne_nil c2 cs2)
              (by omega) tail htail
          rw [hz2] at hsibs2
          rw [hz2]
          simp only [parseText_lt,
            isCloseAhead_not_slash d _ (nameStartOk_ne_slash d hd)]
          simp [hsibs2]

/-- The parse fuel requirement is dominated by the serialized length. -/
theorem pneed_le_serialize :
    ∀ fuel,
      (∀ t, nsize t ≤ fuel → pneed t + 2 ≤ (serialize t).length) ∧
      (∀ l, nsizeList l ≤ fuel → pneedList l ≤ (serializeList l).length) := by
  intro fuel
  induction fuel with
  | zero =>
    constructor
    · rintro ⟨n, ats, t, cs⟩ hf
      rw [show nsize ⟨n, ats, t, cs⟩ = 1 + nsizeList cs from rfl] at hf
      omega
    · rintro (_ | ⟨c1, cs1⟩) hf
      · simp [pneedList, serializeList]
      · rw [show nsizeList (c1 :: cs1) = nsize c1 + nsizeList cs1 from rfl] at hf
        have : 1 ≤ nsize c1 := by
          rcases c1 with ⟨n, ats, t, cs⟩
          rw [show nsize ⟨n, ats, t, cs⟩ = 1 + nsizeList cs from rfl]
          omega
        omega
  | succ f ih =>
    obtain ⟨ihE, ihL⟩ := ih
    have hElem : ∀ t, nsize t ≤ f + 1 → pneed t + 2 ≤ (serialize t).length := by
      rintro ⟨n, ats, t, cs⟩ hf
      rw [show nsize ⟨n, ats, t, cs⟩ = 1 + nsizeList cs from rfl] at hf
      have hl := ihL cs (by omega)
      rw [show pneed ⟨n, ats, t, cs⟩ = 2 + pneedList cs from rfl]
      by_cases hc : (t.isEmpty && cs.isEmpty) = true
      · obtain ⟨ht, hcs⟩ := Bool.and_eq_true_iff.mp hc
        rw [show serialize ⟨n, ats, t, cs⟩
            = '<' :: (n ++ attrsSer ats) ++
              (if (t.isEmpty && cs.isEmpty) = true then toL " />"
               else '>' :: (etEscape t ++ serializeList cs ++ ('<' :: '/' :: n ++ ['>'])))
          from rfl, if_pos hc]
        have hcs2 : cs = [] := by
          rcases cs with _ | ⟨a, b⟩
          · rfl
          · exact Bool.noConfusion hcs
        subst hcs2
        simp [toL, pneedList]
        omega
      · rw [show serialize ⟨n, ats, t, cs⟩
            = '<' :: (n ++ attrsSer ats) ++
              (if (t.isEmpty && cs.isEmpty) = true then toL " />"
               else '>' :: (etEscape t ++ serializeList cs ++ ('<' :: '/' :: n ++ ['>'])))
          from rfl, if_neg hc]
        simp only [List.length_cons, List.length_append, toL]
        omega
    refine ⟨hElem, ?_⟩
    rintro (_ | ⟨c1, cs1⟩) hf
    · simp [pneedList, serializeList]
    · rw [show nsizeList (c1 :: cs1) = nsize c1 + nsizeList cs1 from rfl] at hf
      have h1 : 1 ≤ nsize c1 := by
        rcases c1 with ⟨n, ats, t, cs⟩
        rw [show nsize ⟨n, ats, t, cs⟩ = 1 + nsizeList cs from rfl]
        omega
      have he := hElem c1 (by omega)
      have hl := ihL cs1 (by omega)
      rw [show pneedList (c1 :: cs1) = 1 + pneed c1 + pneedList cs1 from rfl,
        show serializeList (c1 :: cs1) = serialize c1 ++ serializeList cs1 from rfl]
      rw [List.length_append]
      omega

/-- Parsing inverts serialization on safe trees at the document level. -/
theorem parseDoc_serialize (t : XNode) (h : xmlSafe t = true) :
    parseDoc (serialize t) = some t := by
  obtain ⟨d, z, hshape, hd⟩ := serialize_shape t h
  have hsd : startsDecl (serialize t) = false := by
    rw [hshape]
    exact startsDecl_not_qm d z (nameStartOk_ne_qm d hd)
  have hdw : (serialize t).dropWhile isWsX = serialize t := by
    rw [hshape, List.dropWhile_cons]
    simp [isWsX]
  have hfuel : pneed t ≤ (serialize t).length + 1 := by
    have := (pneed_le_serialize (nsize t)).1 t (le_refl _)
    omega
  have hmain := (parse_serialize ((serialize t).length + 1)).1 t h hfuel []
  rw [List.append_nil] at hmain
  unfold parseDoc
  rw [hsd]
  simp only [if_false, Bool.false_eq_true]
  rw [hdw, hmain]
  rfl

/-- Join of two non-empty line lists. -/
theorem joinNl_append (A B : List (List Char)) (hA : A ≠ []) (hB : B ≠ []) :
    joinNl (A ++ B) = joinNl A ++ '\n' :: joinNl B := by
  induction A with
  | nil => exact absurd rfl hA
  | cons a A1 ih =>
    rcases A1 with _ | ⟨a2, A2⟩
    · rcases B with _ | ⟨b, B1⟩
      · exact absurd rfl hB
      · rfl
    · rw [show (a :: a2 :: A2) ++ B = a :: ((a2 :: A2) ++ B) from rfl]
      rw [show joinNl (a :: ((a2 :: A2) ++ B))
          = a ++ '\n' :: joinNl ((a2 :: A2) ++ B) from by
        rcases h2 : (a2 :: A2) ++ B with _ | ⟨x, xs⟩
        · exact absurd h2 (by simp)
        · rfl]
      rw [ih (by simp), show joinNl (a :: a2 :: A2) = a ++ '\n' :: joinNl (a2 :: A2) from rfl]
      simp [List.append_assoc]

/-- Blank-line filter distributes over concatenation. -/
theorem blankFilter_append (A B : List (List Char)) :
    blankFilter (A ++ B) = blankFilter A ++ blankFilter B := by
  unfold blankFilter
  exact List.filter_append A B

/-- One-step unfolding of the line splitter. -/
theorem splitNl_cons (c : Char) (rest : List Char) :
    splitNl (c :: rest)
      = match splitNl rest with
        | [] => [[c]]
        | h :: t => if c = '\n' then [] :: h :: t else (c :: h) :: t := rfl

/-- Line splitting never yields the empty list. -/
theorem splitNl_ne_nil (s : List Char) : splitNl s ≠ [] := by
  cases s with
  | nil => simp [splitNl]
  | cons c rest =>
    unfold splitNl
    rcases h : splitNl rest with _ | ⟨h1, t1⟩
    · simp
    · by_cases hc : c = '\n' <;> simp [hc]

/-- Splitting distributes over a newline separator. -/
theorem splitNl_sep (x y : List Char) :
    splitNl (x ++ '\n' :: y) = splitNl x ++ splitNl y := by
  induction x with
  | nil =>
    show splitNl ('\n' :: y) = [[]] ++ splitNl y
    rw [splitNl_cons]
    rcases h : splitNl y with _ | ⟨h1, t1⟩
    · exact absurd h (splitNl_ne_nil y)
    · simp
  | cons c x1 ih =>
    show splitNl (c :: (x1 ++ '\n' :: y)) = splitNl (c :: x1) ++ splitNl y
    rw [splitNl_cons, splitNl_cons, ih]
    rcases h1 : splitNl x1 with _ | ⟨a, as⟩
    · exact absurd h1 (splitNl_ne_nil x1)
    · rcases h2 : splitNl y with _ | ⟨b, bs⟩
      · exact absurd h2 (splitNl_ne_nil y)
      · by_cases hc : c = '\n' <;> simp [hc]

/-- Splitting a joined line list refragments each line. -/
theorem splitNl_joinNl (ls : List (List Char)) (h : ls ≠ []) :
    splitNl (joinNl ls) = ls.flatMap splitNl := by
  induction ls with
  | nil => exact absurd rfl h
  | cons a ls1 ih =>
    rcases ls1 with _ | ⟨b, ls2⟩
    · simp [joinNl]
    · rw [show joinNl (a :: b :: ls2) = a ++ '\n' :: joinNl (b :: ls2) from rfl,
        splitNl_sep, ih (by simp)]
      rfl

/-- A string without newlines splits into itself alone. -/
theorem splitNl_no_nl (s : List Char) (h : '\n' ∉ s) : splitNl s = [s] := by
  induction s with
  | nil => rfl
  | cons c rest ih =>
    rw [splitNl_cons, ih (fun hm => h (List.mem_cons_of_mem c hm))]
    have hc : c ≠ '\n' := fun he => h (he ▸ List.mem_cons_self c rest)
    simp [hc]

/-- Characters of a split segment come from the split string. -/
theorem mem_splitNl (s : List Char) (l : List Char) (hl : l ∈ splitNl s)
    (c : Char) (hc : c ∈ l) : c ∈ s := by
  induction s generalizing l with
  | nil =>
    simp [splitNl] at hl
    subst hl
    cases hc
  | cons a rest ih =>
    rw [splitNl_cons] at hl
    rcases h : splitNl rest with _ | ⟨h1, t1⟩
    · exact absurd h (splitNl_ne_nil rest)
    · rw [h] at hl
      have hl2 : l ∈ (if a = '\n' then [] :: h1 :: t1 else (a :: h1) :: t1) := hl
      by_cases ha : a = '\n'
      · rw [if_pos ha] at hl2
        rcases List.mem_cons.mp hl2 with rfl | hl3
        · cases hc
        · exact List.mem_cons_of_mem a (ih l (h ▸ hl3) hc)
      · rw [if_neg ha] at hl2
        rcases List.mem_cons.mp hl2 with rfl | hl3
        · rcases List.mem_cons.mp hc with rfl | hc2
          · exact List.mem_cons_self _ _
          · exact List.mem_cons_of_mem a (ih h1 (h ▸ List.mem_cons_self h1 t1) hc2)
        · exact List.mem_cons_of_mem a (ih l (h ▸ List.mem_cons_of_mem h1 hl3) hc)

/-- Split segments carry no newline. -/
theorem splitNl_seg_no_nl (s : List Char) (l : List Char) (hl : l ∈ splitNl s) :
    '\n' ∉ l := by
  induction s generalizing l with
  | nil =>
    simp [splitNl] at hl
    subst hl
    exact List.not_mem_nil _
  | cons a rest ih =>
    rw [splitNl_cons] at hl
    rcases h : splitNl rest with _ | ⟨h1, t1⟩
    · exact absurd h (splitNl_ne_nil rest)
    · rw [h] at hl
      have hl2 : l ∈ (if a = '\n' then [] :: h1 :: t1 else (a :: h1) :: t1) := hl
      by_cases ha : a = '\n'
      · rw [if_pos ha] at hl2
        rcases List.mem_cons.mp hl2 with rfl | hl3
        · exact List.not_mem_nil _
        · exact ih l (h ▸ hl3)
      · rw [if_neg ha] at hl2
        rcases List.mem_cons.mp hl2 with rfl | hl3
        · intro hmem
          rcases List.mem_cons.mp hmem with he | hm2
          · exact ha he.symm
          · exact ih h1 (h ▸ List.mem_cons_self h1 t1) hm2
        · exact ih l (h ▸ List.mem_cons_of_mem h1 hl3)

/-- Splitting after prepending a newline-free prefix extends the first
segment. -/
theorem splitNl_append_no_nl (w x : List Char) (h1 : List Char)
    (t1 : List (List Char)) (hx : splitNl x = h1 :: t1) (hw : '\n' ∉ w) :
    splitNl (w ++ x) = (w ++ h1) :: t1 := by
  induction w with
  | nil => simpa using hx
  | cons c w1 ih =>
    have hc : c ≠ '\n' := fun he => hw (he ▸ List.mem_cons_self c w1)
    rw [show (c :: w1) ++ x = c :: (w1 ++ x) from rfl, splitNl_cons,
      ih (fun hm => hw (List.mem_cons_of_mem c hm))]
    simp [hc]

/-- Line splitting commutes with minidom escaping. -/
theorem splitNl_mdEscape (s : List Char) :
    splitNl (mdEscape s) = (splitNl s).map mdEscape := by
  induction s with
  | nil => rfl
  | cons c s1 ih =>
    show splitNl (mdEscChar c ++ mdEscape s1) = (splitNl (c :: s1)).map mdEscape
    rcases hs : splitNl s1 with _ | ⟨h1, t1⟩
    · exact absurd hs (splitNl_ne_nil s1)
    · have hes : splitNl (mdEscape s1) = mdEscape h1 :: t1.map mdEscape := by
        rw [ih, hs]
        rfl
      by_cases hc : c = '\n'
      · subst hc
        rw [show mdEscChar '\n' = ['\n'] from rfl]
        rw [show ['\n'] ++ mdEscape s1 = '\n' :: mdEscape s1 from rfl, splitNl_cons, hes,
          splitNl_cons, hs]
        simp [mdEscape]
      · have hwnl : '\n' ∉ mdEscChar c := by
          unfold mdEscChar
          by_cases h1c : c = '&'
          · simp [h1c, toL]
          · by_cases h2c : c = '<'
            · simp [h1c, h2c, toL]
            · by_cases h3c : c = '"'
              · simp [h1c, h2c, h3c, toL]
              · by_cases h4c : c = '>'
                · simp [h1c, h2c, h3c, h4c, toL]
                · simp only [h1c, h2c, h3c, h4c, if_false]
                  simp [List.mem_singleton]
                  exact fun he => hc he.symm
        rw [splitNl_append_no_nl (mdEscChar c) (mdEscape s1) _ _ hes hwnl,
          splitNl_cons, hs]
        simp [hc, mdEscape]

/-- A stripped string is empty exactly when every character is
whitespace. -/
theorem pyStrip_nil_iff (l : List Char) : pyStrip l = [] ↔ (∀ c ∈ l, pyWs c = true) := by
  constructor
  · intro h c hc
    unfold pyStrip at h
    rw [List.reverse_eq_nil_iff] at h
    have h2 : ∀ x ∈ (l.dropWhile pyWs).reverse, pyWs x = true :=
      List.dropWhile_eq_nil_iff.mp h
    have h3 : ∀ x ∈ l.dropWhile pyWs, pyWs x = true := by
      intro x hx
      exact h2 x (List.mem_reverse.mpr hx)
    have h4 : l.takeWhile pyWs ++ l.dropWhile pyWs = l :=
      List.takeWhile_append_dropWhile pyWs l
    rw [← h4] at hc
    rcases List.mem_append.mp hc with hc1 | hc2
    · exact List.mem_takeWhile_imp hc1
    · exact h3 c hc2
  · intro h
    unfold pyStrip
    have h1 : l.dropWhile pyWs = [] := List.dropWhile_eq_nil_iff.mpr h
    rw [h1]
    rfl

/-- Minidom escaping preserves all-whitespace status. -/
theorem mdEscape_all_pyWs (l : List Char) :
    (mdEscape l).all pyWs = l.all pyWs := by
  induction l with
  | nil => rfl
  | cons c s ih =>
    show ((mdEscChar c ++ mdEscape s).all pyWs) = (c :: s).all pyWs
    rw [List.all_append, ih, List.all_cons]
    congr 1
    by_cases h1 : c = '&'
    · subst h1; rfl
    · by_cases h2 : c = '<'
      · subst h2; rfl
      · by_cases h3 : c = '"'
        · subst h3; rfl
        · by_cases h4 : c = '>'
          · subst h4; rfl
          · rw [show mdEscChar c = [c] from by
              unfold mdEscChar
              rw [if_neg h1, if_neg h2, if_neg h3, if_neg h4]]
            simp

/-- Minidom escaping preserves blankness of a line. -/
theorem mdEscape_blank (l : List Char) :
    (pyStrip (mdEscape l)).isEmpty = (pyStrip l).isEmpty := by
  rw [Bool.eq_iff_iff, List.isEmpty_iff, List.isEmpty_iff,
    pyStrip_nil_iff, pyStrip_nil_iff]
  constructor
  · intro h
    exact List.all_eq_true.mp ((mdEscape_all_pyWs l).symm ▸ List.all_eq_true.mpr h)
  · intro h
    exact List.all_eq_true.mp ((mdEscape_all_pyWs l) ▸ List.all_eq_true.mpr h)

/-- The interior filter commutes with per-line minidom escaping. -/
theorem innerFilter_map_mdEscape (L : List (List Char)) :
    innerFilter (L.map mdEscape) = (innerFilter L).map mdEscape := by
  induction L with
  | nil => rfl
  | cons l ls ih =>
    rcases ls with _ | ⟨l2, ls2⟩
    · rfl
    · show innerFilter (mdEscape l :: mdEscape l2 :: ls2.map mdEscape)
        = (innerFilter (l :: l2 :: ls2)).map mdEscape
      rw [show innerFilter (mdEscape l :: mdEscape l2 :: ls2.map mdEscape)
          = if (pyStrip (mdEscape l)).isEmpty then innerFilter (mdEscape l2 :: ls2.map mdEscape)
            else mdEscape l :: innerFilter (mdEscape l2 :: ls2.map mdEscape) from rfl,
        show innerFilter (l :: l2 :: ls2)
          = if (pyStrip l).isEmpty then innerFilter (l2 :: ls2)
            else l :: innerFilter (l2 :: ls2) from rfl,
        mdEscape_blank]
      have ih2 : innerFilter (mdEscape l2 :: ls2.map mdEscape)
          = (innerFilter (l2 :: ls2)).map mdEscape := ih
      by_cases hb : (pyStrip l).isEmpty = true
      · rw [if_pos hb, if_pos hb, ih2]
      · rw [if_neg hb, if_neg hb, ih2]
        rfl

/-- Characters of a joined line list come from the lines or are
newlines. -/
theorem mem_joinNl (L : List (List Char)) (c : Char) (hc : c ∈ joinNl L) :
    (∃ l ∈ L, c ∈ l) ∨ c = '\n' := by
  induction L with
  | nil => cases hc
  | cons l ls ih =>
    rcases ls with _ | ⟨l2, ls2⟩
    · exact Or.inl ⟨l, List.mem_singleton.mpr rfl, hc⟩
    · rw [show joinNl (l :: l2 :: ls2) = l ++ '\n' :: joinNl (l2 :: ls2) from rfl] at hc
      rcases List.mem_append.mp hc with h1 | h2
      · exact Or.inl ⟨l, List.mem_cons_self l _, h1⟩
      · rcases List.mem_cons.mp h2 with rfl | h3
        · exact Or.inr rfl
        · rcases ih h3 with ⟨l3, hl3, hcl3⟩ | he
          · exact Or.inl ⟨l3, List.mem_cons_of_mem l hl3, hcl3⟩
          · exact Or.inr he

/-- The interior filter keeps only lines of the original list. -/
theorem mem_innerFilter (L : List (List Char)) (l : List Char)
    (hl : l ∈ innerFilter L) : l ∈ L := by
  induction L with
  | nil => cases hl
  | cons a ls ih =>
    rcases ls with _ | ⟨b, ls2⟩
    · exact hl
    · have hl2 : l ∈ (if (pyStrip a).isEmpty then innerFilter (b :: ls2)
          else a :: innerFilter (b :: ls2)) := hl
      by_cases hb : (pyStrip a).isEmpty = true
      · rw [if_pos hb] at hl2
        exact List.mem_cons_of_mem a (ih hl2)
      · rw [if_neg hb] at hl2
        rcases List.mem_cons.mp hl2 with he | h3
        · rw [he]
          exact List.mem_cons_self _ _
        · exact List.mem_cons_of_mem a (ih h3)

/-- Characters of the blank-line-removed text come from the original
text or are newlines. -/
theorem remInner_chars (t : List Char) (h : ∀ c ∈ t, goodTextChar c = true) :
    ∀ c ∈ remInner t, goodTextChar c = true := by
  intro c hc
  unfold remInner at hc
  rcases hs : splitNl t with _ | ⟨l0, ls⟩
  · exact absurd hs (splitNl_ne_nil t)
  · rw [hs] at hc
    rcases ls with _ | ⟨l1, ls1⟩
    · exact h c hc
    · rcases mem_joinNl _ c hc with ⟨l, hlmem, hcl⟩ | rfl
      · rcases List.mem_cons.mp hlmem with rfl | h2
        · exact h c (mem_splitNl t l (hs ▸ List.mem_cons_self l _) c hcl)
        · have h3 : l ∈ l1 :: ls1 := mem_innerFilter _ l h2
          exact h c (mem_splitNl t l (hs ▸ List.mem_cons_of_mem l0 h3) c hcl)
      · rfl

/-- Joining inverts splitting. -/
theorem joinNl_splitNl (s : List Char) : joinNl (splitNl s) = s := by
  induction s with
  | nil => rfl
  | cons c rest ih =>
    rw [splitNl_cons]
    rcases h : splitNl rest with _ | ⟨h1, t1⟩
    · exact absurd h (splitNl_ne_nil rest)
    · rw [h] at ih
      show joinNl (if c = '\n' then [] :: h1 :: t1 else (c :: h1) :: t1) = c :: rest
      by_cases hc : c = '\n'
      · subst hc
        rw [if_pos rfl]
        rw [show joinNl ([] :: h1 :: t1) = [] ++ '\n' :: joinNl (h1 :: t1) from rfl, ih]
        rfl
      · rw [if_neg hc]
        rcases t1 with _ | ⟨h2, t2⟩
        · show c :: h1 = c :: rest
          rw [show joinNl [h1] = h1 from rfl] at ih
          rw [ih]
        · show (c :: h1) ++ '\n' :: joinNl (h2 :: t2) = c :: rest
          rw [show joinNl (h1 :: h2 :: t2) = h1 ++ '\n' :: joinNl (h2 :: t2) from rfl] at ih
          rw [← ih]
          rfl

/-- Minidom escaping distributes over joined lines. -/
theorem mdEscape_joinNl (L : List (List Char)) :
    mdEscape (joinNl L) = joinNl (L.map mdEscape) := by
  induction L with
  | nil => rfl
  | cons l ls ih =>
    rcases ls with _ | ⟨l2, ls2⟩
    · rfl
    · rw [show joinNl (l :: l2 :: ls2) = l ++ '\n' :: joinNl (l2 :: ls2) from rfl]
      show (l ++ '\n' :: joinNl (l2 :: ls2)).flatMap mdEscChar = _
      rw [List.flatMap_append, List.flatMap_cons]
      rw [show (joinNl (l2 :: ls2)).flatMap mdEscChar = mdEscape (joinNl (l2 :: ls2))
        from rfl, ih]
      rw [show (l :: l2 :: ls2).map mdEscape = mdEscape l :: (l2 :: ls2).map mdEscape
        from rfl]
      rw [show joinNl (mdEscape l :: (l2 :: ls2).map mdEscape)
          = mdEscape l ++ '\n' :: joinNl ((l2 :: ls2).map mdEscape) from by
        rcases h : (l2 :: ls2).map mdEscape with _ | ⟨x, xs⟩
        · exact absurd h (by simp)
        · rfl]
      rfl

/-- Join after extending the first line. -/
theorem joinNl_cons_append (x y : List Char) (L : List (List Char)) :
    joinNl ((x ++ y) :: L) = x ++ joinNl (y :: L) := by
  rcases L with _ | ⟨l, ls⟩
  · rfl
  · show (x ++ y) ++ '\n' :: joinNl (l :: ls) = x ++ (y ++ '\n' :: joinNl (l :: ls))
    rw [List.append_assoc]

/-- Join after extending the last line. -/
theorem joinNl_last_append (A : List (List Char)) (x y : List Char) :
    joinNl (A ++ [x ++ y]) = joinNl (A ++ [x]) ++ y := by
  induction A with
  | nil => rfl
  | cons a A1 ih =>
    rcases A1 with _ | ⟨a2, A2⟩
    · show joinNl [a, x ++ y] = joinNl [a, x] ++ y
      show a ++ '\n' :: (x ++ y) = (a ++ '\n' :: x) ++ y
      simp
    · rw [show (a :: a2 :: A2) ++ [x ++ y] = a :: ((a2 :: A2) ++ [x ++ y]) from rfl,
        show (a :: a2 :: A2) ++ [x] = a :: ((a2 :: A2) ++ [x]) from rfl]
      rw [show joinNl (a :: ((a2 :: A2) ++ [x ++ y]))
          = a ++ '\n' :: joinNl ((a2 :: A2) ++ [x ++ y]) from rfl]
      rw [show joinNl (a :: ((a2 :: A2) ++ [x]))
          = a ++ '\n' :: joinNl ((a2 :: A2) ++ [x]) from rfl]
      rw [ih]
      simp

/-- The interior filter is the blank filter away from the final line. -/
theorem innerFilter_eq_blankFilter (A : List (List Char)) (x : List Char) :
    innerFilter (A ++ [x]) = blankFilter A ++ [x] := by
  induction A with
  | nil => rfl
  | cons a A1 ih =>
    show innerFilter (a :: (A1 ++ [x])) = blankFilter (a :: A1) ++ [x]
    rcases h : A1 ++ [x] with _ | ⟨b, bs⟩
    · exact absurd h (by simp)
    · rw [show innerFilter (a :: b :: bs)
          = if (pyStrip a).isEmpty then innerFilter (b :: bs)
            else a :: innerFilter (b :: bs) from rfl]
      rw [show blankFilter (a :: A1) = if !(pyStrip a).isEmpty then a :: blankFilter A1
          else blankFilter A1 from by
        unfold blankFilter
        rw [List.filter_cons]]
      rw [← h, ih]
      by_cases hb : (pyStrip a).isEmpty = true
      · rw [if_pos hb, hb]
        rfl
      · rw [if_neg hb, Bool.not_eq_true] at *
        rw [hb]
        rfl

/-- A line containing an opening bracket is not blank. -/
theorem blank_no_lt (l : List Char) (h : '<' ∈ l) : (pyStrip l).isEmpty = false := by
  cases he : (pyStrip l).isEmpty
  · rfl
  · have h2 := (pyStrip_nil_iff l).mp (List.isEmpty_iff.mp he) '<' h
    exact absurd h2 (by decide)

/-- Text scanner over a minidom-escaped good text prepends the text to
whatever the scanner yields on the remainder. -/
theorem parseText_mdEscape (s : List Char) (hs : ∀ c ∈ s, goodTextChar c = true)
    (tail : List Char) :
    parseText (mdEscape s ++ tail)
      = match parseText tail with
        | none => none
        | some (t, r) => some (s ++ t, r) := by
  induction s with
  | nil =>
    show parseText tail = _
    rcases hpt : parseText tail with _ | ⟨t, r⟩ <;> simp
  | cons c s1 ih =>
    have hc : goodTextChar c = true := hs c (List.mem_cons_self c s1)
    have ih2 := ih (fun d hd => hs d (List.mem_cons_of_mem c hd))
    have hstep : mdEscape (c :: s1) ++ tail = mdEscChar c ++ (mdEscape s1 ++ tail) := by
      show (mdEscChar c ++ mdEscape s1) ++ tail = _
      rw [List.append_assoc]
    rw [hstep]
    by_cases h1 : c = '&'
    · subst h1
      show consText '&' (parseText (mdEscape s1 ++ tail)) = _
      rw [ih2]
      rcases hpt : parseText tail with _ | ⟨t, r⟩ <;> simp [consText]
    · by_cases h2 : c = '<'
      · subst h2
        show consText '<' (parseText (mdEscape s1 ++ tail)) = _
        rw [ih2]
        rcases hpt : parseText tail with _ | ⟨t, r⟩ <;> simp [consText]
      · by_cases h3 : c = '"'
        · subst h3
          show consText '"' (parseText (mdEscape s1 ++ tail)) = _
          rw [ih2]
          rcases hpt : parseText tail with _ | ⟨t, r⟩ <;> simp [consText]
        · by_cases h4 : c = '>'
          · subst h4
            show consText '>' (parseText (mdEscape s1 ++ tail)) = _
            rw [ih2]
            rcases hpt : parseText tail with _ | ⟨t, r⟩ <;> simp [consText]
          · have hesc : mdEscChar c = [c] := by
              unfold mdEscChar
              rw [if_neg h1, if_neg h2, if_neg h3, if_neg h4]
            rw [hesc]
            show parseText (c :: (mdEscape s1 ++ tail)) = _
            rw [parseText_cons_other c _ h2 h1,
              if_pos (goodTextChar_parsedOk c hc), ih2]
            rcases hpt : parseText tail with _ | ⟨t, r⟩ <;> simp [consText]

/-- Text scanner over a whitespace run stopping at an opening
bracket. -/
theorem parseText_ws (w : List Char) (hw : ∀ c ∈ w, isWsX c = true) (x : List Char) :
    parseText (w ++ '<' :: x) = some (w, '<' :: x) := by
  induction w with
  | nil => exact parseText_lt x
  | cons c w1 ih =>
    have hc := hw c (List.mem_cons_self c w1)
    have ih2 := ih (fun d hd => hw d (List.mem_cons_of_mem c hd))
    rcases isWsX_cases c hc with rfl | rfl | rfl | rfl <;>
      · rw [List.cons_append, parseText_cons_other _ _ (by decide) (by decide),
          if_pos (by decide), ih2]
        rfl

/-- Concatenation of the kept physical lines of one element into a
single string, without the indentation of the element's first line. -/
def coreJoin (ind : Nat) (u : XNode) : List Char :=
  joinNl (blankFilter (coreLines ind u))

/-- The blank filter keeps a non-blank head line. -/
theorem blankFilter_keep (l : List Char) (L : List (List Char))
    (h : (pyStrip l).isEmpty = false) : blankFilter (l :: L) = l :: blankFilter L := by
  unfold blankFilter
  rw [List.filter_cons, h]
  rfl

/-- Core string of a self-closing element. -/
theorem coreJoin_selfclose (ind : Nat) (n : List Char) (rest : List Char) :
    coreJoin ind ⟨n, [], [], []⟩ ++ rest = '<' :: (n ++ '/' :: '>' :: rest) := by
  unfold coreJoin
  rw [show coreLines ind ⟨n, [], [], []⟩
      = ['<' :: (n ++ mdAttrsSer []) ++ toL "/>"] from rfl]
  rw [blankFilter_keep _ _ (blank_no_lt _
    (List.mem_append.mpr (Or.inl (List.mem_cons_self _ _))))]
  show ('<' :: (n ++ mdAttrsSer []) ++ toL "/>") ++ rest = _
  simp [mdAttrsSer, toL, List.append_assoc]

/-- The interior filter of a non-empty list is non-empty. -/
theorem innerFilter_ne_nil (L : List (List Char)) (h : L ≠ []) :
    innerFilter L ≠ [] := by
  induction L with
  | nil => exact absurd rfl h
  | cons y ys ih =>
    rcases ys with _ | ⟨z, zs⟩
    · simp [innerFilter]
    · show (if (pyStrip y).isEmpty then innerFilter (z :: zs)
        else y :: innerFilter (z :: zs)) ≠ []
      by_cases hb2 : (pyStrip y).isEmpty = true
      · rw [if_pos hb2]
        exact ih (by simp)
      · rw [if_neg hb2]
        simp

/-- The blank filter interacts with a suffix appended to the last line
exactly as the interior filter, provided the suffix is markup. -/
theorem blankFilter_addLast (segs : List (List Char)) (close : List Char)
    (hc : '<' ∈ close) (hne : segs ≠ []) :
    blankFilter (addLast close segs) = addLast close (innerFilter segs) := by
  induction segs with
  | nil => exact absurd rfl hne
  | cons x ys ih =>
    rcases ys with _ | ⟨y, ys2⟩
    · show blankFilter [x ++ close] = addLast close [x]
      rw [blankFilter_keep _ _ (blank_no_lt _ (List.mem_append.mpr (Or.inr hc)))]
      rfl
    · show blankFilter (x :: addLast close (y :: ys2))
        = addLast close (if (pyStrip x).isEmpty then innerFilter (y :: ys2)
            else x :: innerFilter (y :: ys2))
      by_cases hb : (pyStrip x).isEmpty = true
      · rw [if_pos hb]
        have hdrop : blankFilter (x :: addLast close (y :: ys2))
            = blankFilter (addLast close (y :: ys2)) := by
          unfold blankFilter
          rw [List.filter_cons, hb]
          rfl
        rw [hdrop]
        exact ih (by simp)
      · rw [if_neg hb, blankFilter_keep _ _ (Bool.not_eq_true _ ▸ hb),
          ih (by simp)]
        rcases h : innerFilter (y :: ys2) with _ | ⟨a, as⟩
        · exact absurd h (innerFilter_ne_nil _ (by simp))
        · rfl

/-- Appending a suffix to the last line then joining equals joining then
appending. -/
theorem joinNl_addLast (close : List Char) (L : List (List Char)) (hne : L ≠ []) :
    joinNl (addLast close L) = joinNl L ++ close := by
  induction L with
  | nil => exact absurd rfl hne
  | cons x ys ih =>
    rcases ys with _ | ⟨y, ys2⟩
    · rfl
    · show joinNl (x :: addLast close (y :: ys2)) = (x ++ '\n' :: joinNl (y :: ys2)) ++ close
      have hadd : addLast close (y :: ys2) ≠ [] := by
        rcases ys2 with _ | ⟨z, zs⟩
        · simp [addLast]
        · simp [addLast]
      rcases h : addLast close (y :: ys2) with _ | ⟨a, as⟩
      · exact absurd h hadd
      · rw [show joinNl (x :: a :: as) = x ++ '\n' :: joinNl (a :: as) from rfl, ← h,
          ih (by simp)]
        simp

/-- Uniform description of the interior blank-line removal. -/
theorem remInner_eq (t : List Char) (r0 : List Char) (rs : List (List Char))
    (h : splitNl t = r0 :: rs) : remInner t = joinNl (r0 :: innerFilter rs) := by
  unfold remInner
  rw [h]
  rcases rs with _ | ⟨r1, rs2⟩
  · show t = joinNl [r0]
    have := joinNl_splitNl t
    rw [h] at this
    exact this.symm
  · rfl

/-- The interior filter keeps a non-blank head line. -/
theorem innerFilter_cons_nonblank (x : List Char) (ys : List (List Char))
    (h : (pyStrip x).isEmpty = false) : innerFilter (x :: ys) = x :: innerFilter ys := by
  rcases ys with _ | ⟨y, ys2⟩
  · rfl
  · show (if (pyStrip x).isEmpty then innerFilter (y :: ys2)
      else x :: innerFilter (y :: ys2)) = _
    rw [h]
    rfl

/-- Core string of an element holding only text: the element prints
inline, and the global blank-line filter turns the text into its
blank-stripped form. -/
theorem coreJoin_inline (ind : Nat) (n : List Char) (t0 : Char) (t1 : List Char)
    (rest : List Char) :
    coreJoin ind ⟨n, [], t0 :: t1, []⟩ ++ rest
      = '<' :: (n ++ '>' :: (mdEscape (remInner (t0 :: t1)) ++
          ('<' :: '/' :: (n ++ '>' :: rest)))) := by
  unfold coreJoin
  rcases hsp : splitNl (t0 :: t1) with _ | ⟨r0, rs⟩
  · exact absurd hsp (splitNl_ne_nil _)
  · have hspe : splitNl (mdEscape (t0 :: t1)) = mdEscape r0 :: rs.map mdEscape := by
      rw [splitNl_mdEscape, hsp]
      rfl
    have hcl : coreLines ind ⟨n, [], t0 :: t1, []⟩
        = addLast (toL "</" ++ n ++ toL ">")
            ((('<' :: (n ++ mdAttrsSer [])) ++ '>' :: mdEscape r0) :: rs.map mdEscape) := by
      conv_lhs => rw [show coreLines ind ⟨n, [], t0 :: t1, []⟩
          = (match splitNl (mdEscape (t0 :: t1)) with
             | [] => [('<' :: (n ++ mdAttrsSer [])) ++ '>' :: (toL "</" ++ n ++ toL ">")]
             | seg :: segs => addLast (toL "</" ++ n ++ toL ">")
                 ((('<' :: (n ++ mdAttrsSer [])) ++ '>' :: seg) :: segs)) from rfl]
      rw [hspe]
    rw [hcl, blankFilter_addLast _ _ (by simp [toL]) (by simp),
      innerFilter_cons_nonblank _ _ (blank_no_lt _
        (List.mem_append.mpr (Or.inl (List.mem_cons_self _ _)))),
      joinNl_addLast _ _ (by simp)]
    rw [show ('<' :: (n ++ mdAttrsSer [])) ++ '>' :: mdEscape r0
        = (('<' :: (n ++ mdAttrsSer [])) ++ ['>']) ++ mdEscape r0 from by simp,
      joinNl_cons_append]
    rw [show innerFilter (rs.map mdEscape) = (innerFilter rs).map mdEscape from
      innerFilter_map_mdEscape rs]
    rw [show joinNl (mdEscape r0 :: (innerFilter rs).map mdEscape)
        = joinNl ((r0 :: innerFilter rs).map mdEscape) from rfl]
    rw [← mdEscape_joinNl, ← remInner_eq (t0 :: t1) r0 rs hsp]
    simp [mdAttrsSer, toL, List.append_assoc]

/-- Core string of an element with children: open-tag line, the
children's filtered lines, and a closing-tag line. -/
theorem coreJoin_children (ind : Nat) (n : List Char) (c1 : XNode) (cs1 : List XNode)
    (rest : List Char) :
    coreJoin ind ⟨n, [], [], c1 :: cs1⟩ ++ rest
      = '<' :: (n ++ '>' :: '\n' ::
          (joinNl (blankFilter (prettyList (ind + 1) (c1 :: cs1)
              ++ [indentL ind ++ ('<' :: '/' :: (n ++ ['>']))])) ++ rest)) := by
  unfold coreJoin
  have hcl : coreLines ind ⟨n, [], [], c1 :: cs1⟩
      = (('<' :: (n ++ mdAttrsSer [])) ++ toL ">") ::
          (prettyList (ind + 1) (c1 :: cs1) ++
            [indentL ind ++ toL "</" ++ n ++ toL ">"]) := rfl
  rw [hcl, blankFilter_keep _ _ (blank_no_lt _
    (List.mem_append.mpr (Or.inl (List.mem_cons_self _ _))))]
  have hBne : blankFilter (prettyList (ind + 1) (c1 :: cs1)
      ++ [indentL ind ++ toL "</" ++ n ++ toL ">"]) ≠ [] := by
    rw [blankFilter_append]
    intro hemp
    rcases List.append_eq_nil.mp hemp with ⟨_, h2⟩
    have hkeep : blankFilter [indentL ind ++ toL "</" ++ n ++ toL ">"]
        = [indentL ind ++ toL "</" ++ n ++ toL ">"] :=
      blankFilter_keep _ _ (blank_no_lt _ (by simp [toL]))
    rw [hkeep] at h2
    exact List.cons_ne_nil _ _ h2
  rcases hB : blankFilter (prettyList (ind + 1) (c1 :: cs1)
      ++ [indentL ind ++ toL "</" ++ n ++ toL ">"]) with _ | ⟨b, bs⟩
  · exact absurd hB hBne
  · rw [show joinNl ((('<' :: (n ++ mdAttrsSer [])) ++ toL ">") :: b :: bs)
        = (('<' :: (n ++ mdAttrsSer [])) ++ toL ">") ++ '\n' :: joinNl (b :: bs) from rfl]
    rw [← hB]
    have hfix : indentL ind ++ toL "</" ++ n ++ toL ">"
        = indentL ind ++ ('<' :: '/' :: (n ++ ['>'])) := by
      simp [toL]
    rw [hfix]
    simp [mdAttrsSer, toL, List.append_assoc]

/-- Sibling lines prepend one element's physical lines. -/
theorem prettyList_cons (ind : Nat) (c : XNode) (cs : List XNode) :
    prettyList ind (c :: cs) = prettyPhys ind c ++ prettyList ind cs := rfl

/-- Indentation is whitespace. -/
theorem indentL_ws (k : Nat) : ∀ c ∈ indentL k, isWsX c = true := by
  intro c hc
  unfold indentL at hc
  rw [List.eq_of_mem_replicate hc]
  rfl

/-- Every element's first physical line starts with an opening
bracket. -/
theorem coreLines_shape (ind : Nat) (u : XNode) :
    ∃ y ls, coreLines ind u = ('<' :: y) :: ls := by
  obtain ⟨n, ats, t, cs⟩ := u
  rcases cs with _ | ⟨c1, cs1⟩
  · rcases t with _ | ⟨t0, t1⟩
    · exact ⟨_, _, rfl⟩
    · rcases hsp : splitNl (mdEscape (t0 :: t1)) with _ | ⟨seg, segs⟩
      · exact absurd hsp (splitNl_ne_nil _)
      · have hcl : coreLines ind ⟨n, ats, t0 :: t1, []⟩
            = addLast (toL "</" ++ n ++ toL ">")
                ((('<' :: (n ++ mdAttrsSer ats)) ++ '>' :: seg) :: segs) := by
          conv_lhs => rw [show coreLines ind ⟨n, ats, t0 :: t1, []⟩
              = (match splitNl (mdEscape (t0 :: t1)) with
                 | [] => [('<' :: (n ++ mdAttrsSer ats)) ++ '>' :: (toL "</" ++ n ++ toL ">")]
                 | seg :: segs => addLast (toL "</" ++ n ++ toL ">")
                     ((('<' :: (n ++ mdAttrsSer ats)) ++ '>' :: seg) :: segs)) from rfl]
          rw [hsp]
        rw [hcl]
        rcases segs with _ | ⟨s1, ss⟩
        · exact ⟨_, _, rfl⟩
        · exact ⟨_, _, rfl⟩
  · rcases t with _ | ⟨t0, t1⟩
    · exact ⟨_, _, rfl⟩
    · exact ⟨_, _, rfl⟩

/-- Group decomposition: the joined filtered lines of one element
followed by further lines split at the element boundary. -/
theorem prettyGroup_decomp (ind : Nat) (c : XNode) (REST : List (List Char))
    (hR : blankFilter REST ≠ []) :
    joinNl (blankFilter (prettyPhys ind c ++ REST))
      = (indentL ind ++ coreJoin ind c) ++ '\n' :: joinNl (blankFilter REST) := by
  obtain ⟨y, ls, hcl⟩ := coreLines_shape ind c
  have hpp : prettyPhys ind c = (indentL ind ++ ('<' :: y)) :: ls := by
    unfold prettyPhys
    rw [hcl]
  rw [hpp,
    show ((indentL ind ++ ('<' :: y)) :: ls) ++ REST
      = (indentL ind ++ ('<' :: y)) :: (ls ++ REST) from rfl,
    blankFilter_keep _ _ (blank_no_lt _
      (List.mem_append.mpr (Or.inr (List.mem_cons_self _ _)))),
    blankFilter_append, joinNl_cons_append,
    show ('<' :: y) :: (blankFilter ls ++ blankFilter REST)
      = (('<' :: y) :: blankFilter ls) ++ blankFilter REST from rfl,
    joinNl_append _ _ (by simp) hR]
  have hcj : coreJoin ind c = joinNl (('<' :: y) :: blankFilter ls) := by
    unfold coreJoin
    rw [hcl, blankFilter_keep _ _ (blank_no_lt _ (List.mem_cons_self _ _))]
  rw [← hcj]
  simp [List.append_assoc]

/-- String consumed by the sibling scanner: each element's core string,
separated by a newline and the shared indentation, capped by `tail`. -/
def sibChain (ind : Nat) (tail : List Char) : List XNode → List Char
  | [] => tail
  | c :: cs =>
    coreJoin ind c ++
      (match cs with
       | [] => tail
       | _ :: _ => '\n' :: (indentL ind ++ sibChain ind tail cs))

/-- The joined filtered sibling lines, closed by one further markup
line, equal the sibling chain. -/
theorem prettyList_chain (ind : Nat) (l : List XNode) (hne : l ≠ [])
    (cl : List Char) (rest : List Char) :
    joinNl (blankFilter (prettyList ind l ++ [indentL (ind - 1) ++ ('<' :: '/' :: cl)])) ++ rest
      = indentL ind ++ sibChain ind
          ('\n' :: (indentL (ind - 1) ++ ('<' :: '/' :: (cl ++ rest)))) l := by
  induction l with
  | nil => exact absurd rfl hne
  | cons c cs ih =>
    rw [prettyList_cons, List.append_assoc, prettyGroup_decomp ind c _ (by
      rw [blankFilter_append]
      intro hemp
      rcases List.append_eq_nil.mp hemp with ⟨_, h2⟩
      rw [blankFilter_keep _ _ (blank_no_lt _ (by
        exact List.mem_append.mpr (Or.inr (List.mem_cons_self _ _)))) ] at h2
      exact List.cons_ne_nil _ _ h2)]
    rcases cs with _ | ⟨c2, cs2⟩
    · show ((indentL ind ++ coreJoin ind c) ++ '\n' ::
          joinNl (blankFilter (prettyList ind [] ++
            [indentL (ind - 1) ++ ('<' :: '/' :: cl)]))) ++ rest = _
      rw [show prettyList ind [] = [] from rfl]
      rw [show ([] : List (List Char)) ++ [indentL (ind - 1) ++ ('<' :: '/' :: cl)]
          = [indentL (ind - 1) ++ ('<' :: '/' :: cl)] from rfl]
      rw [blankFilter_keep _ _ (blank_no_lt _
        (List.mem_append.mpr (Or.inr (List.mem_cons_self _ _))))]
      rw [show blankFilter ([] : List (List Char)) = [] from rfl]
      rw [show joinNl [indentL (ind - 1) ++ ('<' :: '/' :: cl)]
          = indentL (ind - 1) ++ ('<' :: '/' :: cl) from rfl]
      rw [show sibChain ind ('\n' :: (indentL (ind - 1) ++ ('<' :: '/' :: (cl ++ rest)))) [c]
          = coreJoin ind c ++ ('\n' :: (indentL (ind - 1) ++ ('<' :: '/' :: (cl ++ rest))))
        from rfl]
      simp [List.append_assoc]
    · rw [show sibChain ind ('\n' :: (indentL (ind - 1) ++ ('<' :: '/' :: (cl ++ rest))))
          (c :: c2 :: cs2)
        = coreJoin ind c ++ ('\n' :: (indentL ind ++
            sibChain ind ('\n' :: (indentL (ind - 1) ++ ('<' :: '/' :: (cl ++ rest))))
              (c2 :: cs2))) from rfl]
      rw [← ih (by simp)]
      simp [List.append_assoc]

/-- Every element's core string starts with an opening bracket and a
name-start character. -/
theorem coreJoin_shape (ind : Nat) (u : XNode) (h : xmlSafe u = true) :
    ∃ d z, coreJoin ind u = '<' :: d :: z ∧ nameStartOk d = true := by
  obtain ⟨n, ats, t, cs⟩ := u
  obtain ⟨⟨c0, cs0, rfl, h0, _⟩, rfl, _, hsep, _⟩ := xmlSafe_parts _ _ _ _ h
  rcases cs with _ | ⟨c1, cs1⟩
  · rcases t with _ | ⟨t0, t1⟩
    · have he := coreJoin_selfclose ind (c0 :: cs0) []
      rw [List.append_nil] at he
      exact ⟨c0, _, by rw [he, List.cons_append], h0⟩
    · have he := coreJoin_inline ind (c0 :: cs0) t0 t1 []
      rw [List.append_nil] at he
      exact ⟨c0, _, by rw [he, List.cons_append], h0⟩
  · have ht : t = [] := by
      rcases hsep with h2 | h2
      · exact h2
      · exact absurd h2 (List.cons_ne_nil c1 cs1)
    subst ht
    have he := coreJoin_children ind (c0 :: cs0) c1 cs1 []
    rw [List.append_nil] at he
    exact ⟨c0, _, by rw [he, List.cons_append], h0⟩

/-- Whitespace run formed by a newline and indentation. -/
theorem nl_indent_ws (k : Nat) : ('\n' :: indentL k).all isWsX = true := by
  rw [List.all_cons]
  refine (Bool.and_eq_true _ _).mpr ⟨rfl, ?_⟩
  exact List.all_eq_true.mpr (indentL_ws k)

/-- The interior filter of an empty text is empty. -/
theorem remInner_nil : remInner [] = [] := rfl

/-- Membership form of the newline-and-indentation whitespace fact. -/
theorem nl_indent_mem_ws (k : Nat) : ∀ c ∈ ('\n' :: indentL k), isWsX c = true := by
  intro c hc
  rcases List.mem_cons.mp hc with rfl | h2
  · rfl
  · exact indentL_ws k c h2

/-- Every sibling chain starts with an opening bracket and a name-start character. -/
theorem sibChain_shape (ind : Nat) (tl : List Char) (c : XNode) (cs : List XNode)
    (h : xmlSafe c = true) :
    ∃ d z, sibChain ind tl (c :: cs) = '<' :: d :: z ∧ nameStartOk d = true := by
  obtain ⟨d, y, hcj, hd⟩ := coreJoin_shape ind c h
  rcases cs with _ | ⟨c2, cs2⟩
  · exact ⟨d, y ++ tl, by
      rw [show sibChain ind tl [c] = coreJoin ind c ++ tl from rfl, hcj,
        List.cons_append, List.cons_append], hd⟩
  · exact ⟨d, y ++ ('\n' :: (indentL ind ++ sibChain ind tl (c2 :: cs2))), by
      rw [show sibChain ind tl (c :: c2 :: cs2)
          = coreJoin ind c ++ ('\n' :: (indentL ind ++ sibChain ind tl (c2 :: cs2)))
        from rfl, hcj, List.cons_append, List.cons_append], hd⟩

/-- Main stage-two round trip: the parser reads one element core string of the pretty output back as the blank-line-filtered tree, and a sibling chain back as the filtered child list. -/
theorem parse_pretty :
    ∀ fuel,
      (∀ u ind, xmlSafe u = true → pneed u ≤ fuel →
        ∀ rest, parseElem fuel (coreJoin ind u ++ rest) = some (remT u, rest)) ∧
      (∀ l ind, xmlSafeList l = true → l ≠ [] → pneedList l ≤ fuel →
        ∀ w tail, (∀ c ∈ w, isWsX c = true) → isCloseAhead tail = true →
          parseSibs fuel (sibChain ind (w ++ tail) l) = some (remTList l, tail)) := by
  intro fuel
  induction fuel with
  | zero =>
    constructor
    · rintro ⟨n, ats, t, cs⟩ _ _ hf
      rw [show pneed ⟨n, ats, t, cs⟩ = 2 + pneedList cs from rfl] at hf
      omega
    · rintro (_ | ⟨c1, cs1⟩) _ _ hne hf
      · exact absurd rfl hne
      · rw [show pneedList (c1 :: cs1) = 1 + pneed c1 + pneedList cs1 from rfl] at hf
        omega
  | succ f ih =>
    obtain ⟨ihE, ihS⟩ := ih
    constructor
    · rintro ⟨n, ats, t, cs⟩ ind hsafe hfuel rest
      obtain ⟨⟨c0, cs0, rfl, h0, hcs0⟩, rfl, htext, hsep, hlist⟩ :=
        xmlSafe_parts _ _ _ _ hsafe
      rw [show pneed ⟨c0 :: cs0, [], t, cs⟩ = 2 + pneedList cs from rfl] at hfuel
      obtain ⟨g, rfl⟩ : ∃ g, f = g + 1 := ⟨f - 1, by omega⟩
      rcases cs with _ | ⟨c1, cs1⟩
      · rcases t with _ | ⟨t0, t1⟩
        · -- self-closing element
          have hser : coreJoin ind ⟨c0 :: cs0, [], [], []⟩ ++ rest
              = '<' :: (c0 :: (cs0 ++ '/' :: '>' :: rest)) := by
            rw [coreJoin_selfclose, List.cons_append]
          rw [hser]
          simp only [parseElem,
            parseName_exact c0 cs0 '/' ('>' :: rest) h0 hcs0 (by decide),
            parseAttrs_stop g '/' ('>' :: rest) (by decide) (by decide)]
          simp [remT, remTList, remInner_nil]
        · -- inline text element
          have hser : coreJoin ind ⟨c0 :: cs0, [], t0 :: t1, []⟩ ++ rest
              = '<' :: (c0 :: (cs0 ++ '>' :: (mdEscape (remInner (t0 :: t1)) ++
                  ('<' :: '/' :: (c0 :: (cs0 ++ '>' :: rest)))))) := by
            rw [coreJoin_inline]
            simp [List.cons_append]
          rw [hser]
          simp only [parseElem,
            parseName_exact c0 cs0 '>' _ h0 hcs0 (by decide),
            parseAttrs_stop g '>' _ (by decide) (by decide),
            parseText_mdEscape (remInner (t0 :: t1)) (remInner_chars _ htext),
            parseText_lt,
            parseClose_exact2 c0 cs0 rest h0 hcs0]
          simp [isCloseAhead, remT, remTList]
      · -- element with children
        have ht : t = [] := by
          rcases hsep with h | h
          · exact h
          · exact absurd h (List.cons_ne_nil c1 cs1)
        subst ht
        obtain ⟨hs1, hsrest⟩ := Bool.and_eq_true_iff.mp hlist
        have hchain := prettyList_chain (ind + 1) (c1 :: cs1) (List.cons_ne_nil c1 cs1)
            (c0 :: (cs0 ++ ['>'])) rest
        simp only [Nat.add_sub_cancel, List.cons_append, List.nil_append,
          List.append_assoc] at hchain
        have hser : coreJoin ind ⟨c0 :: cs0, [], [], c1 :: cs1⟩ ++ rest
            = '<' :: (c0 :: (cs0 ++ '>' :: '\n' ::
                (joinNl (blankFilter (prettyList (ind + 1) (c1 :: cs1)
                    ++ [indentL ind ++ ('<' :: '/' :: (c0 :: (cs0 ++ ['>'])))])) ++ rest))) := by
          rw [coreJoin_children]
          simp [List.cons_append]
        have hser2 : coreJoin ind ⟨c0 :: cs0, [], [], c1 :: cs1⟩ ++ rest
            = '<' :: (c0 :: (cs0 ++ '>' :: '\n' :: (indentL (ind + 1) ++
                sibChain (ind + 1)
                  ('\n' :: (indentL ind ++ ('<' :: '/' :: (c0 :: (cs0 ++ '>' :: rest)))))
                  (c1 :: cs1)))) := by
          rw [hser, hchain]
        obtain ⟨d, z, hshape, hd⟩ := sibChain_shape (ind + 1)
            ('\n' :: (indentL ind ++ ('<' :: '/' :: (c0 :: (cs0 ++ '>' :: rest)))))
            c1 cs1 hs1
        have hsibs := ihS (c1 :: cs1) (ind + 1) hlist (List.cons_ne_nil c1 cs1) (by omega)
            ('\n' :: indentL ind) ('<' :: '/' :: (c0 :: (cs0 ++ '>' :: rest)))
            (nl_indent_mem_ws ind) rfl
        simp only [List.cons_append] at hsibs
        rw [hshape] at hsibs
        rw [hser2, hshape]
        simp only [parseElem,
          parseName_exact c0 cs0 '>' _ h0 hcs0 (by decide),
          parseAttrs_stop g '>' _ (by decide) (by decide)]
        rw [show ('\n' :: (indentL (ind + 1) ++ '<' :: d :: z))
            = ('\n' :: indentL (ind + 1)) ++ '<' :: d :: z from rfl]
        simp only [parseText_ws ('\n' :: indentL (ind + 1))
            (nl_indent_mem_ws (ind + 1)) (d :: z),
          isCloseAhead_not_slash d _ (nameStartOk_ne_slash d hd),
          nl_indent_ws]
        simp [hsibs, parseClose_exact2 c0 cs0 rest h0 hcs0, isCloseAhead,
          remT, remTList, remInner_nil]
    · rintro (_ | ⟨c1, cs1⟩) ind hsafeL hne hfuel w tail hw htail
      · exact absurd rfl hne
      · obtain ⟨hs1, hsrest⟩ := Bool.and_eq_true_iff.mp hsafeL
        rw [show pneedList (c1 :: cs1) = 1 + pneed c1 + pneedList cs1 from rfl] at hfuel
        rcases cs1 with _ | ⟨c2, cs2⟩
        · rw [show sibChain ind (w ++ tail) [c1] = coreJoin ind c1 ++ (w ++ tail) from rfl]
          obtain ⟨y, rfl⟩ := isCloseAhead_shape tail htail
          simp [parseSibs, ihE c1 ind hs1 (by omega) (w ++ ('<' :: '/' :: y)),
            parseText_ws w hw ('/' :: y), List.all_eq_true.mpr hw, isCloseAhead,
            remTList]
        · rw [show sibChain ind (w ++ tail) (c1 :: c2 :: cs2)
              = coreJoin ind c1 ++
                  ('\n' :: (indentL ind ++ sibChain ind (w ++ tail) (c2 :: cs2)))
            from rfl]
          obtain ⟨d, z, hshape, hd⟩ := sibChain_shape ind (w ++ tail) c2 cs2
              (Bool.and_eq_true_iff.mp hsrest).1
          have hsibs2 := ihS (c2 :: cs2) ind hsrest (List.cons_ne_nil c2 cs2)
              (by omega) w tail hw htail
          rw [hshape] at hsibs2
          rw [hshape]
          simp only [parseSibs,
            ihE c1 ind hs1 (by omega) ('\n' :: (indentL ind ++ '<' :: d :: z))]
          rw [show ('\n' :: (indentL ind ++ '<' :: d :: z))
              = ('\n' :: indentL ind) ++ '<' :: d :: z from rfl]
          simp only [parseText_ws ('\n' :: indentL ind) (nl_indent_mem_ws ind) (d :: z),
            nl_indent_ws, isCloseAhead_not_slash d _ (nameStartOk_ne_slash d hd)]
          simp [hsibs2, remTList]

/-- Concatenation preserves freedom from newlines. -/
theorem no_nl_append (a b : List Char) (ha : '\n' ∉ a) (hb : '\n' ∉ b) :
    '\n' ∉ a ++ b := fun hm => (List.mem_append.mp hm).elim ha hb

/-- Prepending a non-newline character preserves freedom from newlines. -/
theorem no_nl_cons (c : Char) (rest : List Char) (hc : ('\n' : Char) ≠ c)
    (hr : '\n' ∉ rest) : '\n' ∉ c :: rest :=
  fun hm => (List.mem_cons.mp hm).elim hc hr

/-- Valid element names contain no newline. -/
theorem name_no_nl (c0 : Char) (cs0 : List Char) (h0 : nameStartOk c0 = true)
    (hcs0 : ∀ c ∈ cs0, nameCharOk c = true) : '\n' ∉ (c0 :: cs0) := by
  intro hm
  rcases List.mem_cons.mp hm with he | h2
  · rw [← he] at h0
    exact absurd h0 (by decide)
  · exact absurd (hcs0 '\n' h2) (by decide)

/-- Indentation contains no newline. -/
theorem indentL_no_nl (k : Nat) : '\n' ∉ indentL k := by
  intro hm
  exact absurd (List.eq_of_mem_replicate hm) (by decide)

/-- Membership in a line list whose last line received a suffix. -/
theorem mem_addLast (suf : List Char) (a : List Char) (L : List (List Char))
    (l : List Char) (h : l ∈ addLast suf (a :: L)) :
    l ∈ (a :: L) ∨ ∃ l2 ∈ (a :: L), l = l2 ++ suf := by
  induction L generalizing a with
  | nil =>
    rw [show addLast suf [a] = [a ++ suf] from rfl] at h
    rcases List.mem_singleton.mp h with rfl
    exact Or.inr ⟨a, List.mem_cons_self a [], rfl⟩
  | cons b L1 ih =>
    rw [show addLast suf (a :: b :: L1) = a :: addLast suf (b :: L1) from rfl] at h
    rcases List.mem_cons.mp h with rfl | h2
    · exact Or.inl (List.mem_cons_self _ _)
    · rcases ih b h2 with hin | ⟨l2, hl2, he⟩
      · exact Or.inl (List.mem_cons_of_mem a hin)
      · exact Or.inr ⟨l2, List.mem_cons_of_mem a hl2, he⟩

/-- No physical output line of the pretty printer contains a newline: names, escaped text segments, indentation and markup are all newline-free. -/
theorem coreLines_no_nl :
    ∀ fuel,
      (∀ u ind, xmlSafe u = true → pneed u ≤ fuel →
        ∀ l ∈ coreLines ind u, '\n' ∉ l) ∧
      (∀ cs ind, xmlSafeList cs = true → pneedList cs ≤ fuel →
        ∀ l ∈ prettyList ind cs, '\n' ∉ l) := by
  intro fuel
  induction fuel with
  | zero =>
    constructor
    · rintro ⟨n, ats, t, cs⟩ ind _ hf
      rw [show pneed ⟨n, ats, t, cs⟩ = 2 + pneedList cs from rfl] at hf
      omega
    · rintro (_ | ⟨c1, cs1⟩) ind _ hf
      · intro l hl
        rw [show prettyList ind [] = [] from rfl] at hl
        exact absurd hl (List.not_mem_nil l)
      · rw [show pneedList (c1 :: cs1) = 1 + pneed c1 + pneedList cs1 from rfl] at hf
        omega
  | succ f ih =>
    obtain ⟨ihE, ihS⟩ := ih
    constructor
    · rintro ⟨n, ats, t, cs⟩ ind hsafe hfuel l hl
      obtain ⟨⟨c0, cs0, rfl, h0, hcs0⟩, rfl, htext, hsep, hlist⟩ :=
        xmlSafe_parts _ _ _ _ hsafe
      rw [show pneed ⟨c0 :: cs0, [], t, cs⟩ = 2 + pneedList cs from rfl] at hfuel
      have hname : '\n' ∉ (c0 :: cs0) := name_no_nl c0 cs0 h0 hcs0
      rcases cs with _ | ⟨c1, cs1⟩
      · rcases t with _ | ⟨t0, t1⟩
        · rw [show coreLines ind ⟨c0 :: cs0, [], [], []⟩
              = ['<' :: ((c0 :: cs0) ++ mdAttrsSer []) ++ toL "/>"] from rfl] at hl
          rcases List.mem_singleton.mp hl with rfl
          exact no_nl_append _ _
            (no_nl_cons _ _ (by decide) (no_nl_append _ _ hname (by decide)))
            (by decide)
        · rcases hsp : splitNl (mdEscape (t0 :: t1)) with _ | ⟨seg0, segs⟩
          · exact absurd hsp (splitNl_ne_nil _)
          · have hcl : coreLines ind ⟨c0 :: cs0, [], t0 :: t1, []⟩
                = addLast (toL "</" ++ (c0 :: cs0) ++ toL ">")
                    ((('<' :: ((c0 :: cs0) ++ mdAttrsSer [])) ++ '>' :: seg0) :: segs) := by
              conv_lhs => rw [show coreLines ind ⟨c0 :: cs0, [], t0 :: t1, []⟩
                  = (match splitNl (mdEscape (t0 :: t1)) with
                     | [] => [('<' :: ((c0 :: cs0) ++ mdAttrsSer [])) ++ '>' ::
                         (toL "</" ++ (c0 :: cs0) ++ toL ">")]
                     | seg :: segs => addLast (toL "</" ++ (c0 :: cs0) ++ toL ">")
                         ((('<' :: ((c0 :: cs0) ++ mdAttrsSer [])) ++ '>' :: seg) :: segs))
                from rfl]
              rw [hsp]
            rw [hcl] at hl
            have hclose : '\n' ∉ toL "</" ++ (c0 :: cs0) ++ toL ">" :=
              no_nl_append _ _ (no_nl_append _ _ (by decide) hname) (by decide)
            have hmem : ∀ x ∈ (('<' :: ((c0 :: cs0) ++ mdAttrsSer [])) ++ '>' :: seg0) :: segs,
                '\n' ∉ x := by
              intro x hx
              rcases List.mem_cons.mp hx with rfl | hx2
              · exact no_nl_append _ _
                  (no_nl_cons _ _ (by decide) (no_nl_append _ _ hname (by decide)))
                  (no_nl_cons _ _ (by decide)
                    (splitNl_seg_no_nl _ seg0 (hsp ▸ List.mem_cons_self seg0 segs)))
              · exact splitNl_seg_no_nl _ x (hsp ▸ List.mem_cons_of_mem seg0 hx2)
            rcases mem_addLast _ _ _ _ hl with hin | ⟨l2, hl2, rfl⟩
            · exact hmem l hin
            · exact no_nl_append _ _ (hmem l2 hl2) hclose
      · have ht : t = [] := by
          rcases hsep with h | h
          · exact h
          · exact absurd h (List.cons_ne_nil c1 cs1)
        subst ht
        rw [show coreLines ind ⟨c0 :: cs0, [], [], c1 :: cs1⟩
            = (('<' :: ((c0 :: cs0) ++ mdAttrsSer [])) ++ toL ">") ::
                (prettyList (ind + 1) (c1 :: cs1) ++
                  [indentL ind ++ toL "</" ++ (c0 :: cs0) ++ toL ">"]) from rfl] at hl
        rcases List.mem_cons.mp hl with rfl | hl2
        · exact no_nl_append _ _
            (no_nl_cons _ _ (by decide) (no_nl_append _ _ hname (by decide)))
            (by decide)
        · rcases List.mem_append.mp hl2 with hl3 | hl4
          · exact ihS (c1 :: cs1) (ind + 1) hlist (by omega) l hl3
          · rcases List.mem_singleton.mp hl4 with rfl
            exact no_nl_append _ _
              (no_nl_append _ _ (no_nl_append _ _ (indentL_no_nl ind) (by decide)) hname)
              (by decide)
    · rintro (_ | ⟨c1, cs1⟩) ind hsafeL hfuel l hl
      · rw [show prettyList ind [] = [] from rfl] at hl
        exact absurd hl (List.not_mem_nil l)
      · obtain ⟨hs1, hsrest⟩ := Bool.and_eq_true_iff.mp hsafeL
        rw [show pneedList (c1 :: cs1) = 1 + pneed c1 + pneedList cs1 from rfl] at hfuel
        rw [prettyList_cons] at hl
        rcases List.mem_append.mp hl with hl1 | hl2
        · obtain ⟨y, ls, hcl⟩ := coreLines_shape ind c1
          rw [show prettyPhys ind c1 = (match coreLines ind c1 with
              | [] => []
              | l0 :: ls0 => (indentL ind ++ l0) :: ls0) from rfl, hcl] at hl1
          rcases List.mem_cons.mp hl1 with rfl | hl3
          · exact no_nl_append _ _ (indentL_no_nl ind)
              (ihE c1 ind hs1 (by omega) _ (hcl ▸ List.mem_cons_self _ _))
          · exact ihE c1 ind hs1 (by omega) l (hcl ▸ List.mem_cons_of_mem _ hl3)
        · exact ihS cs1 ind hsrest (by omega) l hl2

/-- At indentation level zero the first-line indentation is empty. -/
theorem prettyPhys_zero (t : XNode) : prettyPhys 0 t = coreLines 0 t := by
  obtain ⟨y, ls, hcl⟩ := coreLines_shape 0 t
  unfold prettyPhys
  rw [hcl]
  show (indentL 0 ++ ('<' :: y)) :: ls = ('<' :: y) :: ls
  rw [show indentL 0 = [] from rfl, List.nil_append]

/-- Splitting newline-free lines is the identity. -/
theorem flatMap_splitNl_id (L : List (List Char)) (h : ∀ l ∈ L, '\n' ∉ l) :
    L.flatMap splitNl = L := by
  induction L with
  | nil => rfl
  | cons a L1 ih =>
    rw [List.flatMap_cons, splitNl_no_nl a (h a (List.mem_cons_self a L1)),
      ih (fun l hl => h l (List.mem_cons_of_mem a hl))]
    rfl

/-- Closed form of the pretty pipeline on a safe tree: the declaration line followed by the blank-line-filtered core string of the tree. -/
theorem prettyPipeline_eq (t : XNode) (h : xmlSafe t = true) :
    prettyPipeline t = some (declLine ++ '\n' :: coreJoin 0 t) := by
  unfold prettyPipeline
  rw [parseDoc_serialize t h]
  show some (joinNl (blankFilter (splitNl (joinNl (declLine :: prettyPhys 0 t)))))
      = some (declLine ++ '\n' :: coreJoin 0 t)
  have hnl : ∀ l ∈ declLine :: prettyPhys 0 t, '\n' ∉ l := by
    intro l hl
    rcases List.mem_cons.mp hl with rfl | h2
    · decide
    · rw [prettyPhys_zero] at h2
      exact (coreLines_no_nl (pneed t)).1 t 0 h (le_refl _) l h2
  rw [splitNl_joinNl _ (List.cons_ne_nil _ _), flatMap_splitNl_id _ hnl,
    blankFilter_keep _ _ (blank_no_lt _ (by decide)), prettyPhys_zero]
  obtain ⟨y, ls, hcl⟩ := coreLines_shape 0 t
  have hbf : blankFilter (coreLines 0 t) = ('<' :: y) :: blankFilter ls := by
    rw [hcl, blankFilter_keep _ _ (blank_no_lt _ (List.mem_cons_self _ _))]
  rw [hbf,
    show joinNl (declLine :: ('<' :: y) :: blankFilter ls)
      = declLine ++ '\n' :: joinNl (('<' :: y) :: blankFilter ls) from rfl,
    ← hbf]
  rfl

/-- The parse fuel requirement is dominated by the pretty core string length. -/
theorem pneed_le_coreJoin :
    ∀ fuel,
      (∀ t ind, xmlSafe t = true → pneed t ≤ fuel →
        pneed t + 2 ≤ (coreJoin ind t).length) ∧
      (∀ l ind tl, xmlSafeList l = true → pneedList l ≤ fuel →
        pneedList l ≤ (sibChain ind tl l).length) := by
  intro fuel
  induction fuel with
  | zero =>
    constructor
    · rintro ⟨n, ats, t, cs⟩ ind _ hf
      rw [show pneed ⟨n, ats, t, cs⟩ = 2 + pneedList cs from rfl] at hf
      omega
    · rintro (_ | ⟨c1, cs1⟩) ind tl _ hf
      · rw [show pneedList ([] : List XNode) = 0 from rfl]
        omega
      · rw [show pneedList (c1 :: cs1) = 1 + pneed c1 + pneedList cs1 from rfl] at hf
        omega
  | succ f ih =>
    obtain ⟨ihE, ihS⟩ := ih
    constructor
    · rintro ⟨n, ats, t, cs⟩ ind hsafe hfuel
      obtain ⟨⟨c0, cs0, rfl, h0, hcs0⟩, rfl, htext, hsep, hlist⟩ :=
        xmlSafe_parts _ _ _ _ hsafe
      rw [show pneed ⟨c0 :: cs0, [], t, cs⟩ = 2 + pneedList cs from rfl] at hfuel ⊢
      rcases cs with _ | ⟨c1, cs1⟩
      · rw [show pneedList ([] : List XNode) = 0 from rfl]
        rcases t with _ | ⟨t0, t1⟩
        · have he := coreJoin_selfclose ind (c0 :: cs0) []
          rw [List.append_nil] at he
          rw [he]
          simp [List.length_cons, List.length_append]
        · have he := coreJoin_inline ind (c0 :: cs0) t0 t1 []
          rw [List.append_nil] at he
          rw [he]
          simp [List.length_cons, List.length_append]
          omega
      · have ht : t = [] := by
          rcases hsep with h | h
          · exact h
          · exact absurd h (List.cons_ne_nil c1 cs1)
        subst ht
        have hchain := prettyList_chain (ind + 1) (c1 :: cs1) (List.cons_ne_nil c1 cs1)
            (c0 :: (cs0 ++ ['>'])) []
        simp only [Nat.add_sub_cancel, List.cons_append, List.nil_append,
          List.append_nil, List.append_assoc] at hchain
        have he := coreJoin_children ind (c0 :: cs0) c1 cs1 []
        simp only [List.cons_append, List.append_nil] at he
        rw [he, hchain]
        have hsib := ihS (c1 :: cs1) (ind + 1)
            ('\n' :: (indentL ind ++ ('<' :: '/' :: (c0 :: (cs0 ++ ['>'])))))
            hlist (by omega)
        simp [List.length_cons, List.length_append]
        omega
    · rintro (_ | ⟨c1, cs1⟩) ind tl hsafeL hfuel
      · rw [show pneedList ([] : List XNode) = 0 from rfl]
        omega
      · obtain ⟨hs1, hsrest⟩ := Bool.and_eq_true_iff.mp hsafeL
        rw [show pneedList (c1 :: cs1) = 1 + pneed c1 + pneedList cs1 from rfl] at hfuel ⊢
        have he1 := ihE c1 ind hs1 (by omega)
        rcases cs1 with _ | ⟨c2, cs2⟩
        · rw [show sibChain ind tl [c1] = coreJoin ind c1 ++ tl from rfl,
            List.length_append,
            show pneedList ([] : List XNode) = 0 from rfl]
          omega
        · rw [show sibChain ind tl (c1 :: c2 :: cs2)
              = coreJoin ind c1 ++
                  ('\n' :: (indentL ind ++ sibChain ind tl (c2 :: cs2))) from rfl]
          have he2 := ihS (c2 :: cs2) ind tl hsrest (by omega)
          simp [List.length_append, List.length_cons]
          omega

/-- Document-level stage-two round trip: parsing the full pretty output yields the tree with blank interior text lines removed. -/
theorem parseDoc_pretty (t : XNode) (h : xmlSafe t = true) :
    parseDoc (declLine ++ '\n' :: coreJoin 0 t) = some (remT t) := by
  obtain ⟨d, z, hcj, hd⟩ := coreJoin_shape 0 t h
  have hsd : startsDecl (declLine ++ '\n' :: coreJoin 0 t) = true := rfl
  have hskip : skipPI ((declLine ++ '\n' :: coreJoin 0 t).drop 2)
      = some ('\n' :: coreJoin 0 t) := rfl
  have hdw : ('\n' :: coreJoin 0 t).dropWhile isWsX = coreJoin 0 t := by
    rw [List.dropWhile_cons, if_pos (by decide), hcj, List.dropWhile_cons,
      if_neg (by decide)]
  have hlen := (pneed_le_coreJoin (pneed t)).1 t 0 h (le_refl _)
  have hfuel : pneed t ≤ (declLine ++ '\n' :: coreJoin 0 t).length + 1 := by
    rw [List.length_append, List.length_cons]
    omega
  have hmain := (parse_pretty ((declLine ++ '\n' :: coreJoin 0 t).length + 1)).1
      t 0 h hfuel []
  rw [List.append_nil] at hmain
  unfold parseDoc
  rw [hsd]
  simp only [if_true]
  rw [hskip]
  show (match parseElem ((declLine ++ '\n' :: coreJoin 0 t).length + 1)
        (List.dropWhile isWsX ('\n' :: coreJoin 0 t)) with
      | none => none
      | some (u, r) => if List.dropWhile isWsX r = [] then some u else none)
      = some (remT t)
  rw [hdw, hmain]
  rfl

/-- One whitespace step of the word scanner flushes the accumulator. -/
theorem wordsOfAux_ws_step (acc : List Char) (c : Char) (b : List Char)
    (hc : isWsX c = true) :
    wordsOfAux acc (c :: b) = wordsOfAux acc [] ++ wordsOf b := by
  rw [show wordsOfAux acc (c :: b)
      = (if isWsX c = true then
          (if acc.isEmpty then wordsOfAux [] b else acc.reverse :: wordsOfAux [] b)
         else wordsOfAux (c :: acc) b) from rfl,
    if_pos hc,
    show wordsOfAux acc [] = (if acc.isEmpty then [] else [acc.reverse]) from rfl]
  by_cases ha : acc.isEmpty
  · rw [if_pos ha, if_pos ha]
    rfl
  · rw [if_neg ha, if_neg ha]
    rfl

/-- The word scanner splits at an interior whitespace character. -/
theorem wordsOfAux_split (c : Char) (hc : isWsX c = true) (b : List Char) :
    ∀ a acc, wordsOfAux acc (a ++ c :: b) = wordsOfAux acc a ++ wordsOf b := by
  intro a
  induction a with
  | nil =>
    intro acc
    rw [List.nil_append, wordsOfAux_ws_step acc c b hc]
  | cons x a1 ih =>
    intro acc
    rw [List.cons_append]
    by_cases hx : isWsX x = true
    · rw [show wordsOfAux acc (x :: (a1 ++ c :: b))
          = (if isWsX x = true then
              (if acc.isEmpty then wordsOfAux [] (a1 ++ c :: b)
               else acc.reverse :: wordsOfAux [] (a1 ++ c :: b))
             else wordsOfAux (x :: acc) (a1 ++ c :: b)) from rfl,
        if_pos hx,
        show wordsOfAux acc (x :: a1)
          = (if isWsX x = true then
              (if acc.isEmpty then wordsOfAux [] a1
               else acc.reverse :: wordsOfAux [] a1)
             else wordsOfAux (x :: acc) a1) from rfl,
        if_pos hx, ih []]
      by_cases ha : acc.isEmpty
      · rw [if_pos ha, if_pos ha]
      · rw [if_neg ha, if_neg ha]
        rfl
    · rw [show wordsOfAux acc (x :: (a1 ++ c :: b))
          = (if isWsX x = true then
              (if acc.isEmpty then wordsOfAux [] (a1 ++ c :: b)
               else acc.reverse :: wordsOfAux [] (a1 ++ c :: b))
             else wordsOfAux (x :: acc) (a1 ++ c :: b)) from rfl,
        if_neg hx,
        show wordsOfAux acc (x :: a1)
          = (if isWsX x = true then
              (if acc.isEmpty then wordsOfAux [] a1
               else acc.reverse :: wordsOfAux [] a1)
             else wordsOfAux (x :: acc) a1) from rfl,
        if_neg hx, ih (x :: acc)]

/-- Words of a concatenation around a whitespace separator. -/
theorem wordsOf_append_ws (a : List Char) (c : Char) (b : List Char)
    (hc : isWsX c = true) :
    wordsOf (a ++ c :: b) = wordsOf a ++ wordsOf b :=
  wordsOfAux_split c hc b a []

/-- Words of a newline join are the concatenated words of the lines. -/
theorem wordsOf_joinNl (L : List (List Char)) :
    wordsOf (joinNl L) = L.flatMap wordsOf := by
  induction L with
  | nil => rfl
  | cons a L1 ih =>
    rcases L1 with _ | ⟨b, L2⟩
    · rw [show joinNl [a] = a from rfl, List.flatMap_cons]
      simp
    · rw [show joinNl (a :: b :: L2) = a ++ '\n' :: joinNl (b :: L2) from rfl,
        wordsOf_append_ws a '\n' _ (by decide), ih]
      simp [List.flatMap_cons]

/-- The word scanner finds no word in pure whitespace. -/
theorem wordsOfAux_ws_nil (s : List Char) (h : ∀ c ∈ s, isWsX c = true) :
    wordsOfAux [] s = [] := by
  induction s with
  | nil => rfl
  | cons c rest ih =>
    rw [show wordsOfAux [] (c :: rest)
        = (if isWsX c = true then wordsOfAux [] rest
           else wordsOfAux [c] rest) from rfl,
      if_pos (h c (List.mem_cons_self c rest))]
    exact ih (fun d hd => h d (List.mem_cons_of_mem c hd))

/-- A pure-whitespace text has no words. -/
theorem wordsOf_ws_nil (s : List Char) (h : ∀ c ∈ s, isWsX c = true) :
    wordsOf s = [] := wordsOfAux_ws_nil s h

/-- A blank text of round-trippable characters is XML whitespace: the Python-only whitespace characters are excluded by the character class. -/
theorem good_blank_ws (l : List Char) (hg : ∀ c ∈ l, goodTextChar c = true)
    (hb : (pyStrip l).isEmpty = true) : ∀ c ∈ l, isWsX c = true := by
  intro c hc
  have hg2 := hg c hc
  have hp2 := (pyStrip_nil_iff l).mp (List.isEmpty_iff.mp hb) c hc
  simp only [pyWs, Bool.or_eq_true, decide_eq_true_eq] at hp2
  rcases hp2 with ((((rfl | rfl) | rfl) | rfl) | rfl) | rfl
  · rfl
  · rfl
  · rfl
  · exact absurd hg2 (by decide)
  · exact absurd hg2 (by decide)
  · exact absurd hg2 (by decide)

/-- Dropping blank interior segments does not change the words. -/
theorem flatMap_wordsOf_innerFilter (rs : List (List Char))
    (h : ∀ l ∈ rs, ∀ c ∈ l, goodTextChar c = true) :
    (innerFilter rs).flatMap wordsOf = rs.flatMap wordsOf := by
  induction rs with
  | nil => rfl
  | cons a rs1 ih =>
    rcases rs1 with _ | ⟨b, rs2⟩
    · rfl
    · rw [show innerFilter (a :: b :: rs2)
          = (if (pyStrip a).isEmpty = true then innerFilter (b :: rs2)
             else a :: innerFilter (b :: rs2)) from rfl]
      have ih2 := ih (fun l hl => h l (List.mem_cons_of_mem a hl))
      by_cases hb : (pyStrip a).isEmpty = true
      · rw [if_pos hb, ih2]
        simp [List.flatMap_cons,
          wordsOf_ws_nil a (good_blank_ws a (h a (List.mem_cons_self a _)) hb)]
      · rw [if_neg hb, List.flatMap_cons, ih2]
        simp [List.flatMap_cons]

/-- Removing blank interior lines of a text preserves its words. -/
theorem wordsOf_remInner (t : List Char) (h : ∀ c ∈ t, goodTextChar c = true) :
    wordsOf (remInner t) = wordsOf t := by
  rcases hs : splitNl t with _ | ⟨r0, rs⟩
  · exact absurd hs (splitNl_ne_nil t)
  · have hsegs : ∀ l ∈ rs, ∀ c ∈ l, goodTextChar c = true := by
      intro l hl c hc
      exact h c (mem_splitNl t l (hs ▸ List.mem_cons_of_mem r0 hl) c hc)
    rw [remInner_eq t r0 rs hs, wordsOf_joinNl, List.flatMap_cons,
      flatMap_wordsOf_innerFilter rs hsegs]
    have ht : wordsOf t = wordsOf r0 ++ rs.flatMap wordsOf := by
      rw [show t = joinNl (splitNl t) from (joinNl_splitNl t).symm, hs,
        wordsOf_joinNl, List.flatMap_cons]
    rw [ht]

/-- A text is equal modulo whitespace to its blank-interior-stripped form. -/
theorem textEquiv_remInner (t : List Char) (h : ∀ c ∈ t, goodTextChar c = true) :
    textEquiv (remInner t) t = true := by
  unfold textEquiv
  rw [wordsOf_remInner t h]
  exact beq_self_eq_true _

/-- The reparsed tree is isomorphic modulo whitespace to the original safe tree. -/
theorem isoTree_remT :
    ∀ fuel,
      (∀ t, xmlSafe t = true → pneed t ≤ fuel → isoTree (remT t) t = true) ∧
      (∀ l, xmlSafeList l = true → pneedList l ≤ fuel →
        isoList (remTList l) l = true) := by
  intro fuel
  induction fuel with
  | zero =>
    constructor
    · rintro ⟨n, ats, t, cs⟩ _ hf
      rw [show pneed ⟨n, ats, t, cs⟩ = 2 + pneedList cs from rfl] at hf
      omega
    · rintro (_ | ⟨c1, cs1⟩) _ hf
      · rfl
      · rw [show pneedList (c1 :: cs1) = 1 + pneed c1 + pneedList cs1 from rfl] at hf
        omega
  | succ f ih =>
    obtain ⟨ihE, ihS⟩ := ih
    constructor
    · rintro ⟨n, ats, t, cs⟩ hsafe hf
      obtain ⟨⟨c0, cs0, rfl, h0, hcs0⟩, rfl, htext, hsep, hlist⟩ :=
        xmlSafe_parts _ _ _ _ hsafe
      rw [show pneed ⟨c0 :: cs0, [], t, cs⟩ = 2 + pneedList cs from rfl] at hf
      rw [show remT ⟨c0 :: cs0, [], t, cs⟩
          = ⟨c0 :: cs0, [], remInner t, remTList cs⟩ from rfl]
      rw [show isoTree ⟨c0 :: cs0, [], remInner t, remTList cs⟩ ⟨c0 :: cs0, [], t, cs⟩
          = (((c0 :: cs0 : List Char) == c0 :: cs0 &&
              (([] : List (List Char × List Char)) == [])) &&
             textEquiv (remInner t) t && isoList (remTList cs) cs) from rfl]
      rw [textEquiv_remInner t htext, ihS cs hlist (by omega)]
      simp
    · rintro (_ | ⟨c1, cs1⟩) hsafeL hf
      · rfl
      · obtain ⟨hs1, hsrest⟩ := Bool.and_eq_true_iff.mp hsafeL
        rw [show pneedList (c1 :: cs1) = 1 + pneed c1 + pneedList cs1 from rfl] at hf
        rw [show remTList (c1 :: cs1) = remT c1 :: remTList cs1 from rfl,
          show isoList (remT c1 :: remTList cs1) (c1 :: cs1)
            = (isoTree (remT c1) c1 && isoList (remTList cs1) cs1) from rfl,
          ihE c1 hs1 (by omega), ihS cs1 hsrest (by omega)]
        rfl

/-- Claim C6: refuted, on two mapper outputs.  The object with key a$b
maps to a tree whose child element is named a@b after substitution, and
the at sign is not an XML name character; the object with an array
value maps to a tree with child elements item:0 and item:1 after the
underscore-to-colon substitution, and the namespace-aware re-parse
rejects the undeclared colon prefix.  In both cases minidom cannot
re-parse the rough string, the pretty pipeline produces no output at
all (the service answers 500), and re-parsing the printer output cannot
reproduce the tree. -/
theorem claim_C6_counterexample :
    prettyPipeline (json_to_xml_element
      (Json.obj [(toL "a$b", Json.num 1)]) (toL "document")) = none ∧
    prettyPipeline (json_to_xml_element
      (Json.obj [(toL "a", Json.num 1), (toL "b", Json.arr [Json.num 1, Json.num 2])])
      (toL "document")) = none := by
  exact ⟨rfl, rfl⟩

/-- Claim C6, amended: for every JSON input whose mapped tree is XML-safe (non-empty names that start with a letter or underscore and continue with letters, digits, underscore, dot or hyphen — in particular colon-free, which rules out array items item:<i> and underscore-carrying keys — and round-trippable text), the converter succeeds and re-parsing its pretty output yields a tree isomorphic to the mapped tree modulo whitespace. -/
theorem claim_C6_amended (j : Json)
    (h : xmlSafe (json_to_xml_element j (toL "document")) = true) :
    ∃ out t2, normalConvert j = Except.ok out ∧ parseDoc out = some t2 ∧
      isoTree t2 (json_to_xml_element j (toL "document")) = true := by
  refine ⟨declLine ++ '\n' :: coreJoin 0 (json_to_xml_element j (toL "document")),
    remT (json_to_xml_element j (toL "document")), ?_, ?_, ?_⟩
  · unfold normalConvert
    rw [prettyPipeline_eq _ h]
  · exact parseDoc_pretty _ h
  · exact (isoTree_remT (pneed (json_to_xml_element j (toL "document")))).1 _ h (le_refl _)

/-- Witness: the amended claim C6 instantiated at a concrete object with a scalar field and a nested object field, an input on which the real pipeline succeeds. -/
theorem claim_C6_witness :
    xmlSafe (json_to_xml_element
      (Json.obj [(toL "a", Json.num 1), (toL "b", Json.obj [(toL "c", Json.num 2)])])
      (toL "document")) = true ∧
    ∃ out t2,
      normalConvert
          (Json.obj [(toL "a", Json.num 1), (toL "b", Json.obj [(toL "c", Json.num 2)])])
        = Except.ok out ∧
      parseDoc out = some t2 ∧
      isoTree t2 (json_to_xml_element
        (Json.obj [(toL "a", Json.num 1), (toL "b", Json.obj [(toL "c", Json.num 2)])])
        (toL "document")) = true :=
  ⟨by decide, claim_C6_amended _ (by decide)⟩
